import Mathlib

/-!
Shallow embedding of `src/bit-vector.h` (V8's `BitVector` and
`GrowableBitVector`) and proofs about it.

Modelling conventions:
* The platform word is fixed at 64 bits (`kPointerSize == 8`), so
  `kDataBits = 64` and `kDataBitShift = 6`.
* Machine words (`uintptr_t`) are modelled as `Nat`; every reachable state
  keeps its words `< 2^64`, which the well-formedness predicate `WF` records.
* The word array `data_` is a `List Nat`; the C++ field `data_length_` is the
  list's length.  Out-of-bounds reads (impossible under the `DCHECK`ed
  preconditions) are modelled as reading `0`.
* Mutation is modelled functionally: each operation returns the new state.
-/

namespace V8

/-- `data_[i]`: word `i` of a word array (reads as `0` out of bounds, a case
the C++ `DCHECK`s rule out). -/
def wordAt (data : List Nat) (i : Nat) : Nat := data.getD i 0

/-- All-ones 64-bit word, the result of `memset(p, -1, ...)` on one word. -/
def allOnes : Nat := 2 ^ 64 - 1

/-- Two's-complement negation `~x` of a 64-bit word (exact for `x < 2^64`). -/
def cmpl64 (x : Nat) : Nat := x ^^^ allOnes

/-- The `BitVector` state: logical bit length and backing word array. -/
structure BitVector where
  length_ : Nat
  data_ : List Nat
deriving Repr, DecidableEq

namespace BitVector

/-- `SizeFor(length)`: number of words needed, `1 + (length-1)/kDataBits`,
and `1` for `length == 0`. -/
def SizeFor (length : Nat) : Nat :=
  if length = 0 then 1 else 1 + (length - 1) / 64

/-- `BitVector(length, zone)`: fresh vector, all words cleared. -/
def ofLength (length : Nat) : BitVector :=
  ⟨length, List.replicate (SizeFor length) 0⟩

/-- `Contains(i)`: test bit `i % kDataBits` of word `i / kDataBits`. -/
def Contains (b : BitVector) (i : Nat) : Bool :=
  (wordAt b.data_ (i / 64) &&& (1 <<< (i % 64))) != 0

/-- `Add(i)`: or bit `i % kDataBits` into word `i / kDataBits`. -/
def Add (b : BitVector) (i : Nat) : BitVector :=
  { b with
    data_ := b.data_.set (i / 64) (wordAt b.data_ (i / 64) ||| (1 <<< (i % 64))) }

/-- `AddAll()`: `memset(data_, -1, ...)`, every word becomes all-ones. -/
def AddAll (b : BitVector) : BitVector :=
  { b with data_ := List.replicate b.data_.length allOnes }

/-- `Remove(i)`: and `~(kOne << i % kDataBits)` into word `i / kDataBits`. -/
def Remove (b : BitVector) (i : Nat) : BitVector :=
  { b with
    data_ := b.data_.set (i / 64)
      (wordAt b.data_ (i / 64) &&& cmpl64 (1 <<< (i % 64))) }

/-- The word array produced by `Union`'s loop `data_[i] |= other.data_[i]`. -/
def unionData (a b : BitVector) : List Nat :=
  (List.range a.data_.length).map fun i => wordAt a.data_ i ||| wordAt b.data_ i

/-- `Union(other)`. -/
def Union (a b : BitVector) : BitVector := { a with data_ := unionData a b }

/-- `UnionIsChanged(other)`: the changed flag (some word differed from its
old value) together with the new state (`data_[i] |= other.data_[i]`). -/
def UnionIsChanged (a b : BitVector) : Bool × BitVector :=
  ((List.range a.data_.length).any fun i =>
      (wordAt a.data_ i ||| wordAt b.data_ i) != wordAt a.data_ i,
   { a with data_ := (List.range a.data_.length).map fun i =>
       wordAt a.data_ i ||| wordAt b.data_ i })

/-- The word array produced by `Intersect`'s loop `data_[i] &= other.data_[i]`. -/
def intersectData (a b : BitVector) : List Nat :=
  (List.range a.data_.length).map fun i => wordAt a.data_ i &&& wordAt b.data_ i

/-- `Intersect(other)`. -/
def Intersect (a b : BitVector) : BitVector := { a with data_ := intersectData a b }

/-- `IntersectIsChanged(other)`: the changed flag (some word differed from its
old value) together with the new state (`data_[i] &= other.data_[i]`). -/
def IntersectIsChanged (a b : BitVector) : Bool × BitVector :=
  ((List.range a.data_.length).any fun i =>
      (wordAt a.data_ i &&& wordAt b.data_ i) != wordAt a.data_ i,
   { a with data_ := (List.range a.data_.length).map fun i =>
       wordAt a.data_ i &&& wordAt b.data_ i })

/-- `Subtract(other)`: loop `data_[i] &= ~other.data_[i]`. -/
def Subtract (a b : BitVector) : BitVector :=
  { a with
    data_ := (List.range a.data_.length).map fun i =>
      wordAt a.data_ i &&& cmpl64 (wordAt b.data_ i) }

/-- `Clear()`: zero every word. -/
def Clear (b : BitVector) : BitVector :=
  { b with data_ := List.replicate b.data_.length 0 }

/-- `IsEmpty()`: every word is zero. -/
def IsEmpty (b : BitVector) : Bool :=
  b.data_.all fun w => w == 0

/-- `Equals(other)`: word-by-word comparison over `data_length_` words. -/
def Equals (a b : BitVector) : Bool :=
  (List.range a.data_.length).all fun i => wordAt a.data_ i == wordAt b.data_ i

/-- The private `CopyFrom(other_data, other_data_length)`: copy the source
words into the prefix of a `dstLen`-word array and zero-fill the rest. -/
def copyWords (dstLen : Nat) (src : List Nat) : List Nat :=
  (List.range dstLen).map fun i => if i < src.length then wordAt src i else 0

/-- Copy construction `BitVector(other, zone)`: same length, fresh array,
`CopyFrom(other)`. -/
def copy (other : BitVector) : BitVector :=
  ⟨other.length_, copyWords (SizeFor other.length_) other.data_⟩

/-- `Resize(new_length, zone)`: reallocate (copying all old words, zero-filling
the new ones) only when the word count grows, then update `length_`. -/
def Resize (b : BitVector) (new_length : Nat) : BitVector :=
  if SizeFor new_length > b.data_.length then
    ⟨new_length, copyWords (SizeFor new_length) b.data_⟩
  else
    ⟨new_length, b.data_⟩

/-- Modelled from the spec: `Count()` is declared in the header but defined
elsewhere; per §4.1 it is the "population count ... implemented by summing
per-word popcount".  `popcnt` is the per-word population count. -/
def popcnt (n : Nat) : Nat :=
  if n = 0 then 0 else popcnt (n / 2) + n % 2
decreasing_by exact Nat.div_lt_self (Nat.pos_of_ne_zero (by assumption)) Nat.one_lt_two

/-- Modelled from the spec: `Count()` sums per-word popcounts. -/
def Count (b : BitVector) : Nat :=
  (b.data_.map popcnt).sum

/-- Representation invariant every reachable `BitVector` satisfies: the word
array has exactly `SizeFor length_` words and each word fits in 64 bits. -/
def WF (b : BitVector) : Prop :=
  b.data_.length = SizeFor b.length_ ∧ ∀ w ∈ b.data_, w < 2 ^ 64

instance (b : BitVector) : Decidable (WF b) := by
  unfold WF; infer_instance

/-- Bit `k` of a word array (bit `k % 64` of word `k / 64`). -/
def hasBitAt (data : List Nat) (k : Nat) : Bool :=
  (wordAt data (k / 64)).testBit (k % 64)

/-- The indices of the set bits of a word array, in ascending order. -/
def setBitsList (data : List Nat) : List Nat :=
  (List.range (64 * data.length)).filter fun k => hasBitAt data k

/-- `PaddingZero`: every bit at a position `≥ length_` in the word array is
zero (positions `≥ 64 * data_.length` read as zero automatically). -/
def PaddingZero (b : BitVector) : Prop :=
  ∀ k, k < 64 * b.data_.length → b.length_ ≤ k → hasBitAt b.data_ k = false

instance (b : BitVector) : Decidable (PaddingZero b) := by
  unfold PaddingZero; infer_instance

end BitVector

/-- `BitVector::Iterator` state: the target's word array together with the
cursor fields `current_index_`, `current_value_`, `current_`.  (`current_` is
`int` in the source and starts at `-1`, hence `Int`.) -/
structure Iterator where
  data : List Nat
  current_index_ : Nat
  current_value_ : Nat
  current_ : Int
deriving Repr, DecidableEq

namespace Iterator

/-- `Done()`: the word cursor moved past the last word. -/
def Done (it : Iterator) : Bool := it.current_index_ ≥ it.data.length

/-- `Current()`. -/
def Current (it : Iterator) : Int := it.current_

/-- `SkipZeroBytes` from the header: shift out whole zero bytes, adding 8 to
`current_` per byte.  The C++ loop never terminates on `val == 0` (it is never
called with 0); the embedding returns `(0, cur)` there so the function is
total. -/
def SkipZeroBytes (val : Nat) (cur : Int) : Nat × Int :=
  if h : val ≠ 0 ∧ val &&& 255 = 0 then SkipZeroBytes (val >>> 8) (cur + 8)
  else (val, cur)
decreasing_by
  simp only [Nat.shiftRight_eq_div_pow]
  exact Nat.div_lt_self (Nat.pos_of_ne_zero h.1) (by norm_num)

/-- `SkipZeroBits` from the header: shift out single zero bits, adding 1 to
`current_` per bit.  Same totalization on `val == 0` as `SkipZeroBytes`. -/
def SkipZeroBits (val : Nat) (cur : Int) : Nat × Int :=
  if h : val ≠ 0 ∧ val &&& 1 = 0 then SkipZeroBits (val >>> 1) (cur + 1)
  else (val, cur)
decreasing_by
  simp only [Nat.shiftRight_eq_div_pow, Nat.pow_one]
  exact Nat.div_lt_self (Nat.pos_of_ne_zero h.1) Nat.one_lt_two

/-- Modelled from the spec: the word-skipping loop of `Advance` (whose body is
in the `.cc` file, not under `src/`; spec §4.2 step 1): starting at word `idx`,
find the first non-zero word, or none if all remaining words are zero. -/
def findWord (data : List Nat) (idx : Nat) : Option (Nat × Nat) :=
  if idx < data.length then
    if wordAt data idx = 0 then findWord data (idx + 1)
    else some (idx, wordAt data idx)
  else none
termination_by data.length - idx
decreasing_by omega

/-- Modelled from the spec: `Advance()` (declared in the header, defined in
the `.cc` file, not under `src/`; spec §4.2): consume the bit just reported
(`current_ + 1`); if the remaining bits of the current word are zero, move the
word cursor forward to the next non-zero word (the running bit counter
restarting at that word's base index) or to the done state; in a non-zero
word, skip zero bytes then zero bits until the lowest bit is 1, record the
counter as `current_`, and keep the remaining bits shifted right by one. -/
def Advance (it : Iterator) : Iterator :=
  let cur := it.current_ + 1
  if it.current_value_ ≠ 0 then
    let p := SkipZeroBytes it.current_value_ cur
    let q := SkipZeroBits p.1 p.2
    { it with current_ := q.2, current_value_ := q.1 >>> 1 }
  else
    match findWord it.data (it.current_index_ + 1) with
    | none => { it with current_index_ := it.data.length, current_ := cur }
    | some iw =>
        let p := SkipZeroBytes iw.2 ((iw.1 : Int) * 64)
        let q := SkipZeroBits p.1 p.2
        { it with current_index_ := iw.1, current_ := q.2,
                  current_value_ := q.1 >>> 1 }

/-- `Iterator(target)`: bind word 0, set `current_ = -1`, and advance to the
first set bit. -/
def ofTarget (b : BitVector) : Iterator :=
  Advance ⟨b.data_, 0, wordAt b.data_ 0, -1⟩

/-- Proof-side abstraction of an iterator state: `it` walks `data`, every
position below `q` has already been examined, and the cursor fields are
consistent with that (`current_value_` holds the unexamined high bits of the
current word, `current_` is `q - 1`). -/
def PreState (it : Iterator) (data : List Nat) (q : Nat) : Prop :=
  it.data = data ∧
  it.current_index_ < data.length ∧
  64 * it.current_index_ ≤ q ∧
  q ≤ 64 * it.current_index_ + 64 ∧
  it.current_value_ =
    wordAt data it.current_index_ >>> (q - 64 * it.current_index_) ∧
  it.current_ = (q : Int) - 1

/-- `m` is the first set bit of `data` at a position `≥ q`. -/
def isNextBit (data : List Nat) (q m : Nat) : Prop :=
  q ≤ m ∧ BitVector.hasBitAt data m = true ∧
  ∀ u, q ≤ u → u < m → BitVector.hasBitAt data u = false

/-!  Support lemmas for the termination argument of the traversal `toList`
(the traversal measure is lexicographic on remaining words, then the
remaining bits of the current word; these facts are part of making that
definition well-founded). -/

theorem SkipZeroBytes_fst_le (val : Nat) (cur : Int) :
    (SkipZeroBytes val cur).1 ≤ val := by
  induction val, cur using SkipZeroBytes.induct with
  | case1 val cur hcond ih =>
    rw [SkipZeroBytes, dif_pos hcond]
    refine le_trans ih ?_
    simp only [Nat.shiftRight_eq_div_pow]
    exact Nat.div_le_self _ _
  | case2 val cur hcond =>
    rw [SkipZeroBytes, dif_neg hcond]

theorem SkipZeroBytes_fst_ne_zero (val : Nat) (cur : Int) :
    val ≠ 0 → (SkipZeroBytes val cur).1 ≠ 0 := by
  induction val, cur using SkipZeroBytes.induct with
  | case1 val cur hcond ih =>
    intro _
    rw [SkipZeroBytes, dif_pos hcond]
    apply ih
    have h255 : val &&& 255 = val % 256 := by
      have h : (255 : Nat) = 2 ^ 8 - 1 := by norm_num
      rw [h, Nat.and_pow_two_sub_one_eq_mod]
    have hmod : val % 256 = 0 := by rw [← h255]; exact hcond.2
    intro hz
    have hdiv : val / 256 = 0 := by
      have h8 : val >>> 8 = val / 2 ^ 8 := Nat.shiftRight_eq_div_pow val 8
      rw [hz] at h8
      norm_num at h8
      omega
    exact hcond.1 (by omega)
  | case2 val cur hcond =>
    intro h
    rw [SkipZeroBytes, dif_neg hcond]
    exact h

theorem SkipZeroBits_fst_le (val : Nat) (cur : Int) :
    (SkipZeroBits val cur).1 ≤ val := by
  induction val, cur using SkipZeroBits.induct with
  | case1 val cur hcond ih =>
    rw [SkipZeroBits, dif_pos hcond]
    refine le_trans ih ?_
    simp only [Nat.shiftRight_eq_div_pow, Nat.pow_one]
    exact Nat.div_le_self _ _
  | case2 val cur hcond =>
    rw [SkipZeroBits, dif_neg hcond]

theorem SkipZeroBits_fst_ne_zero (val : Nat) (cur : Int) :
    val ≠ 0 → (SkipZeroBits val cur).1 ≠ 0 := by
  induction val, cur using SkipZeroBits.induct with
  | case1 val cur hcond ih =>
    intro _
    rw [SkipZeroBits, dif_pos hcond]
    apply ih
    have h1 : val &&& 1 = val % 2 := by
      have h : val &&& 1 = val &&& (2 ^ 1 - 1) := by norm_num
      rw [h, Nat.and_pow_two_sub_one_eq_mod]
    have hmod : val % 2 = 0 := by rw [← h1]; exact hcond.2
    intro hz
    have hdiv : val / 2 = 0 := by
      have h2 : val >>> 1 = val / 2 ^ 1 := Nat.shiftRight_eq_div_pow val 1
      rw [hz] at h2
      norm_num at h2
      omega
    exact hcond.1 (by omega)
  | case2 val cur hcond =>
    intro h
    rw [SkipZeroBits, dif_neg hcond]
    exact h

theorem findWord_some_bounds {data : List Nat} {idx : Nat} {p : Nat × Nat}
    (h : findWord data idx = some p) : idx ≤ p.1 ∧ p.1 < data.length := by
  induction idx using findWord.induct data with
  | case1 x hx hw ih =>
    rw [findWord, if_pos hx, if_pos hw] at h
    have := ih h
    omega
  | case2 x hx hw =>
    rw [findWord, if_pos hx, if_neg hw] at h
    cases h
    omega
  | case3 x hx =>
    rw [findWord, if_neg hx] at h
    exact absurd h (by simp)

theorem advance_measure (it : Iterator) (hnd : it.Done = false) :
    it.data.length - (Advance it).current_index_ <
      it.data.length - it.current_index_ ∨
    ((Advance it).current_index_ = it.current_index_ ∧
      (Advance it).current_value_ < it.current_value_) := by
  have hidx : it.current_index_ < it.data.length := by
    simp only [Done, ge_iff_le, decide_eq_false_iff_not, Nat.not_le] at hnd
    exact hnd
  by_cases hv : it.current_value_ = 0
  · rcases hfw : findWord it.data (it.current_index_ + 1) with _ | iw
    · left
      have ha : (Advance it).current_index_ = it.data.length := by
        simp [Advance, hv, hfw]
      omega
    · left
      have hb := findWord_some_bounds hfw
      have ha : (Advance it).current_index_ = iw.1 := by
        simp [Advance, hv, hfw]
      omega
  · right
    refine ⟨by simp [Advance, hv], ?_⟩
    have ha : (Advance it).current_value_ =
        (SkipZeroBits (SkipZeroBytes it.current_value_ (it.current_ + 1)).1
          (SkipZeroBytes it.current_value_ (it.current_ + 1)).2).1 >>> 1 := by
      simp [Advance, hv]
    have h1 := SkipZeroBytes_fst_ne_zero it.current_value_ (it.current_ + 1) hv
    have h2 := SkipZeroBits_fst_ne_zero _
      (SkipZeroBytes it.current_value_ (it.current_ + 1)).2 h1
    have h3 := SkipZeroBytes_fst_le it.current_value_ (it.current_ + 1)
    have h4 := SkipZeroBits_fst_le (SkipZeroBytes it.current_value_ (it.current_ + 1)).1
      (SkipZeroBytes it.current_value_ (it.current_ + 1)).2
    rw [ha]
    simp only [Nat.shiftRight_eq_div_pow, Nat.pow_one]
    calc _ < (SkipZeroBits (SkipZeroBytes it.current_value_ (it.current_ + 1)).1
          (SkipZeroBytes it.current_value_ (it.current_ + 1)).2).1 :=
        Nat.div_lt_self (Nat.pos_of_ne_zero h2) Nat.one_lt_two
      _ ≤ _ := le_trans h4 h3

theorem advance_data (it : Iterator) : (Advance it).data = it.data := by
  by_cases hv : it.current_value_ = 0 <;>
    rcases hfw : findWord it.data (it.current_index_ + 1) with _ | iw <;>
    simp [Advance, hv, hfw]

/-- The data read out by a full traversal: `Current()` at each state, then
`Advance()`, until `Done()`. -/
def toList (it : Iterator) : List Int :=
  if hnd : it.Done then [] else it.Current :: toList it.Advance
termination_by (it.data.length - it.current_index_, it.current_value_)
decreasing_by
  rcases advance_measure it (by simpa using hnd) with h | ⟨h1, h2⟩
  · exact Prod.Lex.left _ _ (by rw [advance_data]; exact h)
  · rw [advance_data, h1]
    exact Prod.Lex.right _ h2

end Iterator

/-- `GrowableBitVector` state: an optional backing `BitVector`. -/
structure GrowableBitVector where
  bits_ : Option BitVector
deriving Repr, DecidableEq

namespace GrowableBitVector

/-- `kInitialLength`. -/
def kInitialLength : Nat := 1024

/-- `InBitsRange(value)`: a backing set exists and its length exceeds
`value`. -/
def InBitsRange (g : GrowableBitVector) (value : Nat) : Bool :=
  match g.bits_ with
  | none => false
  | some b => value < b.length_

/-- `Contains(value)`. -/
def Contains (g : GrowableBitVector) (value : Nat) : Bool :=
  if g.InBitsRange value then
    match g.bits_ with
    | some b => b.Contains value
    | none => false  -- unreachable: InBitsRange implies bits_ is present
  else false

/-- The `while (new_length <= value) new_length *= 2;` loop of
`EnsureCapacity`.  The C++ loop never terminates when `n == 0` (only
reachable from a zero-length backing set); the embedding returns `n` there so
the function is total. -/
def grow (n value : Nat) : Nat :=
  if h : 0 < n ∧ n ≤ value then grow (n * 2) value else n
termination_by value + 1 - n
decreasing_by omega

/-- `EnsureCapacity(value, zone)`: double from the current length (or from
`kInitialLength` when unallocated) until the length exceeds `value`, then
allocate or resize. -/
def EnsureCapacity (g : GrowableBitVector) (value : Nat) : GrowableBitVector :=
  if g.InBitsRange value then g
  else
    match g.bits_ with
    | none => ⟨some (BitVector.ofLength (grow kInitialLength value))⟩
    | some b => ⟨some (b.Resize (grow b.length_ value))⟩

/-- `Add(value, zone)`: ensure capacity, then set the bit in the backing
set. -/
def Add (g : GrowableBitVector) (value : Nat) : GrowableBitVector :=
  match (g.EnsureCapacity value).bits_ with
  | some b => ⟨some (b.Add value)⟩
  | none => ⟨none⟩  -- unreachable: EnsureCapacity always allocates

/-- The backing set a `GrowableBitVector::Iterator` walks: the backing set if
allocated, otherwise a freshly allocated length-1 all-zero `BitVector`. -/
def iterSource (g : GrowableBitVector) : BitVector :=
  match g.bits_ with
  | none => BitVector.ofLength 1
  | some b => b

/-- The indices yielded by a full `GrowableBitVector::Iterator` traversal. -/
def iterList (g : GrowableBitVector) : List Int :=
  (Iterator.ofTarget g.iterSource).toList

/-- `Union(other, zone)`: add every index yielded by `other`'s iterator. -/
def Union (g : GrowableBitVector) (other : GrowableBitVector) :
    GrowableBitVector :=
  (iterList other).foldl (fun acc c => acc.Add c.toNat) g

/-- `Clear()`: clear the backing set if one exists. -/
def Clear (g : GrowableBitVector) : GrowableBitVector :=
  ⟨g.bits_.map BitVector.Clear⟩

/-- Representation invariant of every API-reachable `GrowableBitVector`: an
allocated backing set is well-formed, has no stray padding bits (the wrapper
never calls `AddAll`), and has positive length (a zero-length backing set
would make the C++ doubling loop diverge). -/
def Inv (g : GrowableBitVector) : Prop :=
  match g.bits_ with
  | none => True
  | some b => b.WF ∧ b.PaddingZero ∧ 0 < b.length_

instance (g : GrowableBitVector) : Decidable g.Inv :=
  match g with
  | ⟨none⟩ => isTrue trivial
  | ⟨some b⟩ =>
      inferInstanceAs (Decidable (b.WF ∧ b.PaddingZero ∧ 0 < b.length_))

end GrowableBitVector

/-! ### Generic word-array and bit lemmas -/

theorem wordAt_set_self {data : List Nat} {i : Nat} (w : Nat)
    (h : i < data.length) : wordAt (data.set i w) i = w := by
  simp [wordAt, List.getD_eq_getElem?_getD, List.getElem?_set_self h]

theorem wordAt_set_ne {data : List Nat} {i j : Nat} (w : Nat) (h : i ≠ j) :
    wordAt (data.set i w) j = wordAt data j := by
  simp [wordAt, List.getD_eq_getElem?_getD, List.getElem?_set_ne h]

theorem wordAt_replicate {n : Nat} {a : Nat} {i : Nat} :
    wordAt (List.replicate n a) i = if i < n then a else 0 := by
  simp only [wordAt, List.getD_eq_getElem?_getD, List.getElem?_replicate]
  split <;> simp

theorem wordAt_rangeMap {n : Nat} (f : Nat → Nat) (i : Nat) :
    wordAt ((List.range n).map f) i = if i < n then f i else 0 := by
  by_cases h : i < n
  · rw [wordAt, List.getD_eq_getElem?_getD, List.getElem?_map,
      List.getElem?_range h]
    simp [h]
  · rw [wordAt, List.getD_eq_default, if_neg h]
    simpa using h

theorem wordAt_default {data : List Nat} {i : Nat} (h : data.length ≤ i) :
    wordAt data i = 0 := by
  simp [wordAt, List.getD_eq_getElem?_getD, List.getElem?_eq_none h]

theorem wordAt_lt {data : List Nat} (hw : ∀ w ∈ data, w < 2 ^ 64) (i : Nat) :
    wordAt data i < 2 ^ 64 := by
  by_cases hi : i < data.length
  · have h : wordAt data i = data[i] := by
      simp [wordAt, List.getD_eq_getElem?_getD, List.getElem?_eq_getElem hi]
    rw [h]
    exact hw _ (List.getElem_mem hi)
  · rw [wordAt_default (Nat.le_of_not_lt hi)]
    positivity

theorem and_two_pow_ne (w r : Nat) : ((w &&& 2 ^ r) != 0) = w.testBit r := by
  cases h : w.testBit r
  · have hz : w &&& 2 ^ r = 0 := by
      apply Nat.eq_of_testBit_eq
      intro j
      simp only [Nat.testBit_and, Nat.testBit_two_pow, Nat.zero_testBit,
        Bool.and_eq_false_iff]
      by_cases hj : r = j
      · subst hj; left; exact h
      · right; simpa using hj
    simp [hz]
  · have hnz : (w &&& 2 ^ r).testBit r = true := by
      simp [Nat.testBit_and, Nat.testBit_two_pow, h]
    simp only [bne_iff_ne, ne_eq]
    intro he
    rw [he] at hnz
    simp at hnz

theorem testBit_allOnes (u : Nat) :
    allOnes.testBit u = decide (u < 64) := by
  rw [allOnes]
  exact Nat.testBit_two_pow_sub_one 64 u

theorem testBit_cmpl64 (x u : Nat) :
    (cmpl64 x).testBit u = ((x.testBit u).xor (decide (u < 64))) := by
  rw [cmpl64, Nat.testBit_xor, testBit_allOnes]

namespace BitVector

theorem SizeFor_pos (L : Nat) : 0 < SizeFor L := by
  unfold SizeFor; split <;> omega

theorem div64_lt_SizeFor {i L : Nat} (h : i < L) : i / 64 < SizeFor L := by
  unfold SizeFor
  split <;> omega

theorem SizeFor_le_SizeFor {L M : Nat} (h : L ≤ M) : SizeFor L ≤ SizeFor M := by
  unfold SizeFor
  split <;> split <;> omega

theorem lt_64_mul_SizeFor {i L : Nat} (h : i < L) : i < 64 * SizeFor L := by
  unfold SizeFor
  split <;> omega

theorem Contains_eq_hasBitAt (b : BitVector) (i : Nat) :
    b.Contains i = hasBitAt b.data_ i := by
  rw [Contains, hasBitAt, Nat.one_shiftLeft, and_two_pow_ne]

/-! ### Claim C1 -/

/-- Claim C1: for a well-formed `BitVector` and valid indices `i`, `j` with
`j ≠ i`: `Add(i)` makes `Contains(i)` true, `Remove(i)` makes `Contains(i)`
false, and both leave `Contains(j)` unchanged. -/
theorem C1_add_remove_contains (b : BitVector) (i j : Nat) (hb : b.WF)
    (hi : i < b.length_) (hj : j < b.length_) (hne : j ≠ i) :
    (b.Add i).Contains i = true ∧ (b.Remove i).Contains i = false ∧
    (b.Add i).Contains j = b.Contains j ∧
    (b.Remove i).Contains j = b.Contains j := by
  have hidx : i / 64 < b.data_.length := by
    rw [hb.1]; exact div64_lt_SizeFor hi
  have hri : i % 64 < 64 := Nat.mod_lt _ (by norm_num)
  simp only [Contains_eq_hasBitAt, hasBitAt, Add, Remove]
  refine ⟨?_, ?_, ?_, ?_⟩
  · rw [wordAt_set_self _ hidx, Nat.one_shiftLeft]
    simp [Nat.testBit_or, Nat.testBit_two_pow]
  · rw [wordAt_set_self _ hidx, Nat.one_shiftLeft]
    simp [Nat.testBit_and, testBit_cmpl64, Nat.testBit_two_pow, hri]
  · by_cases hw : i / 64 = j / 64
    · rw [← hw, wordAt_set_self _ hidx, Nat.one_shiftLeft]
      have hmne : i % 64 ≠ j % 64 := by omega
      simp [Nat.testBit_or, Nat.testBit_two_pow, hmne, hw]
    · rw [wordAt_set_ne _ hw]
  · by_cases hw : i / 64 = j / 64
    · rw [← hw, wordAt_set_self _ hidx, Nat.one_shiftLeft]
      have hmne : i % 64 ≠ j % 64 := by omega
      have hj64 : j % 64 < 64 := Nat.mod_lt _ (by norm_num)
      simp [Nat.testBit_and, testBit_cmpl64, Nat.testBit_two_pow, hmne, hj64]
    · rw [wordAt_set_ne _ hw]

/-- Claim C1 witness: the theorem applied to a concrete length-10 vector with
`i = 5`, `j = 3`. -/
theorem C1_add_remove_contains_witness :
    ((ofLength 10).Add 5).Contains 5 = true ∧
    ((ofLength 10).Remove 5).Contains 5 = false ∧
    ((ofLength 10).Add 5).Contains 3 = (ofLength 10).Contains 3 ∧
    ((ofLength 10).Remove 5).Contains 3 = (ofLength 10).Contains 3 :=
  C1_add_remove_contains (ofLength 10) 5 3 (by decide) (by decide) (by decide)
    (by decide)

/-! ### Resize lemmas -/

theorem copyWords_length (dstLen : Nat) (src : List Nat) :
    (copyWords dstLen src).length = dstLen := by
  simp [copyWords]

theorem wordAt_copyWords (dstLen : Nat) (src : List Nat) (i : Nat) :
    wordAt (copyWords dstLen src) i =
      if i < dstLen then (if i < src.length then wordAt src i else 0) else 0 := by
  rw [copyWords, wordAt_rangeMap]

theorem Resize_length (b : BitVector) (L2 : Nat) :
    (b.Resize L2).length_ = L2 := by
  rw [Resize]; split <;> rfl

theorem wordAt_Resize_lt (b : BitVector) (L2 : Nat) {i : Nat}
    (h : i < b.data_.length) :
    wordAt (b.Resize L2).data_ i = wordAt b.data_ i := by
  rw [Resize]
  split
  · rename_i hgt
    rw [wordAt_copyWords, if_pos (by omega), if_pos h]
  · rfl

theorem wordAt_Resize_ge (b : BitVector) (L2 : Nat) {i : Nat}
    (h : b.data_.length ≤ i) :
    wordAt (b.Resize L2).data_ i = 0 := by
  rw [Resize]
  split
  · rw [wordAt_copyWords, if_neg (Nat.not_lt.mpr h)]
    split <;> rfl
  · exact wordAt_default h

theorem Resize_data_length (b : BitVector) (L2 : Nat) :
    (b.Resize L2).data_.length = max b.data_.length (SizeFor L2) := by
  rw [Resize]
  split
  · rename_i hgt
    show (copyWords (SizeFor L2) b.data_).length = _
    rw [copyWords_length]
    omega
  · rename_i hle
    simp only [Nat.not_lt] at hle
    show b.data_.length = max b.data_.length (SizeFor L2)
    omega

/-! ### Claim C2 (corrected) -/

/-- Claim C2 counterexample: `AddAll` on a length-1 vector sets the padding
bits of its single word; `Resize(2)` keeps that word, so the nominally new
index `1` reads as contained immediately after the resize, contradicting the
claim's "Contains(i) returns false for every i in [L1, L2)". -/
theorem C2_counterexample :
    (ofLength 1).AddAll.length_ = 1 ∧ (ofLength 1).AddAll.WF ∧
    ((ofLength 1).AddAll.Resize 2).Contains 1 = true := by
  refine ⟨rfl, by decide, ?_⟩
  decide

/-- Claim C2 as amended: additionally assuming the padding bits above the old
length are zero (`PaddingZero`, which holds unless `AddAll` polluted them),
`Resize(L2)` with `L2 > L1` preserves `Contains(i)` for `i < L1` and leaves
every `i` in `[L1, L2)` unset. -/
theorem C2_resize (b : BitVector) (L2 : Nat) (hb : b.WF) (hp : b.PaddingZero)
    (h : b.length_ < L2) :
    (∀ i, i < b.length_ → (b.Resize L2).Contains i = b.Contains i) ∧
    (∀ i, b.length_ ≤ i → i < L2 → (b.Resize L2).Contains i = false) := by
  constructor
  · intro i hi
    have hidx : i / 64 < b.data_.length := by
      rw [hb.1]; exact div64_lt_SizeFor hi
    rw [Contains_eq_hasBitAt, Contains_eq_hasBitAt, hasBitAt, hasBitAt,
      wordAt_Resize_lt _ _ hidx]
  · intro i hle hlt
    rw [Contains_eq_hasBitAt, hasBitAt]
    by_cases hidx : i / 64 < b.data_.length
    · rw [wordAt_Resize_lt _ _ hidx]
      exact hp i (by omega) hle
    · rw [wordAt_Resize_ge _ _ (Nat.le_of_not_lt hidx)]
      exact Nat.zero_testBit _
/-- Claim C2 witness: instantiating the amended claim on a length-10 vector
holding `{2}`, resized to 100. -/
theorem C2_resize_witness :
    (((ofLength 10).Add 2).Resize 100).Contains 2 =
      ((ofLength 10).Add 2).Contains 2 ∧
    (((ofLength 10).Add 2).Resize 100).Contains 50 = false :=
  ⟨(C2_resize ((ofLength 10).Add 2) 100 (by decide) (by decide) (by decide)).1
      2 (by decide),
   (C2_resize ((ofLength 10).Add 2) 100 (by decide) (by decide) (by decide)).2
      50 (by decide) (by decide)⟩

/-! ### Claim C3 -/

/-- Claim C3: on a vector whose length is not a word multiple, `AddAll` sets
the padding bits of the last word, and a growing `Resize(L2)` keeps the whole
old word array, so every index in `[L1, min L2 (oldWordCount*64))` reads as
contained immediately after the resize. -/
theorem C3_addall_resize_padding (b : BitVector) (L2 : Nat) (hb : b.WF)
    (hmod : b.length_ % 64 ≠ 0) (h : b.length_ < L2) :
    (∀ k, b.length_ ≤ k → k < 64 * b.data_.length →
      hasBitAt b.AddAll.data_ k = true) ∧
    (∀ i, b.length_ ≤ i → i < min L2 (SizeFor b.length_ * 64) →
      (b.AddAll.Resize L2).Contains i = true) := by
  have hall : ∀ j, j < b.data_.length → wordAt b.AddAll.data_ j = allOnes := by
    intro j hj
    rw [AddAll, wordAt_replicate, if_pos hj]
  constructor
  · intro k _ hk
    rw [hasBitAt, hall (k / 64) (by omega)]
    rw [testBit_allOnes]
    simp [Nat.mod_lt k (by norm_num : 0 < 64)]
  · intro i hle hlt
    have hidx : i / 64 < b.data_.length := by
      rw [hb.1]; omega
    have hidx' : i / 64 < b.AddAll.data_.length := by
      simpa [AddAll] using hidx
    rw [Contains_eq_hasBitAt, hasBitAt, wordAt_Resize_lt _ _ hidx',
      hall (i / 64) hidx, testBit_allOnes]
    simp [Nat.mod_lt i (by norm_num : 0 < 64)]

/-- Claim C3 witness: a length-10 all-ones vector resized to 100 still
contains index 20, and its padding bit 15 is set after `AddAll`. -/
theorem C3_addall_resize_padding_witness :
    hasBitAt (ofLength 10).AddAll.data_ 15 = true ∧
    ((ofLength 10).AddAll.Resize 100).Contains 20 = true :=
  ⟨(C3_addall_resize_padding (ofLength 10) 100 (by decide) (by decide)
      (by decide)).1 15 (by decide) (by decide),
   (C3_addall_resize_padding (ofLength 10) 100 (by decide) (by decide)
      (by decide)).2 20 (by decide) (by decide)⟩

/-! ### Pointwise descriptions of the bulk operations -/

theorem wordAt_eq_getElem {data : List Nat} {i : Nat} (h : i < data.length) :
    wordAt data i = data[i] := by
  simp [wordAt, List.getD_eq_getElem?_getD, List.getElem?_eq_getElem h]

theorem bv_ext {x y : BitVector} (h1 : x.length_ = y.length_)
    (h2 : x.data_ = y.data_) : x = y := by
  cases x; cases y; simp_all

theorem rangeMap_eq_self_iff (data : List Nat) (f : Nat → Nat) :
    (List.range data.length).map f = data ↔
      ∀ i, i < data.length → f i = wordAt data i := by
  constructor
  · intro h i hi
    have h2 := congrArg (fun l => wordAt l i) h
    simp only at h2
    rw [wordAt_rangeMap, if_pos hi] at h2
    exact h2
  · intro h
    apply List.ext_getElem (by simp)
    intro i h1 h2
    simp only [List.getElem_map, List.getElem_range]
    rw [h i h2, wordAt_eq_getElem h2]

theorem anyFlag_false_iff (data : List Nat) (f : Nat → Nat) :
    (((List.range data.length).any fun i => f i != wordAt data i) = false) ↔
      (List.range data.length).map f = data := by
  rw [List.any_eq_false, rangeMap_eq_self_iff]
  constructor
  · intro h i hi
    have := h i (List.mem_range.mpr hi)
    simpa using this
  · intro h i hi
    have := h i (List.mem_range.mp hi)
    simp [this]

theorem unionData_length (a b : BitVector) :
    (unionData a b).length = a.data_.length := by
  simp [unionData]

theorem wordAt_unionData {a b : BitVector} {i : Nat}
    (h : i < a.data_.length) :
    wordAt (unionData a b) i = wordAt a.data_ i ||| wordAt b.data_ i := by
  rw [unionData, wordAt_rangeMap, if_pos h]

theorem intersectData_length (a b : BitVector) :
    (intersectData a b).length = a.data_.length := by
  simp [intersectData]

theorem wordAt_intersectData {a b : BitVector} {i : Nat}
    (h : i < a.data_.length) :
    wordAt (intersectData a b) i = wordAt a.data_ i &&& wordAt b.data_ i := by
  rw [intersectData, wordAt_rangeMap, if_pos h]

theorem and_cmpl64_self {x : Nat} (hx : x < 2 ^ 64) : x &&& cmpl64 x = 0 := by
  apply Nat.eq_of_testBit_eq
  intro u
  rw [Nat.testBit_and, testBit_cmpl64, Nat.zero_testBit]
  by_cases hu : u < 64
  · simp [hu]
  · have hb : x.testBit u = false :=
      Nat.testBit_lt_two_pow
        (lt_of_lt_of_le hx (Nat.pow_le_pow_right (by norm_num) (by omega)))
    simp [hb]

theorem wordAt_ofLength (L i : Nat) : wordAt (ofLength L).data_ i = 0 := by
  show wordAt (List.replicate (SizeFor L) 0) i = 0
  rw [wordAt_replicate]
  split <;> rfl

/-! ### Claim C4 -/

/-- Claim C4: `UnionIsChanged` / `IntersectIsChanged` leave the receiver in
the same state `Union` / `Intersect` produce, and return `false` exactly when
the receiver's word array is unchanged (the operation's fixed point). -/
theorem C4_ischanged_fixpoint (a b : BitVector) (hlen : a.length_ = b.length_) :
    (a.UnionIsChanged b).2 = a.Union b ∧
    ((a.UnionIsChanged b).1 = false ↔ (a.Union b).data_ = a.data_) ∧
    (a.IntersectIsChanged b).2 = a.Intersect b ∧
    ((a.IntersectIsChanged b).1 = false ↔ (a.Intersect b).data_ = a.data_) := by
  refine ⟨rfl, ?_, rfl, ?_⟩
  · simpa only [UnionIsChanged, Union, unionData] using
      anyFlag_false_iff a.data_ fun i => wordAt a.data_ i ||| wordAt b.data_ i
  · simpa only [IntersectIsChanged, Intersect, intersectData] using
      anyFlag_false_iff a.data_ fun i => wordAt a.data_ i &&& wordAt b.data_ i

/-- Claim C4 witness: the theorem applied to the length-8 sets `{1,2}` and
`{2}` (union of the second into the first is unchanged). -/
theorem C4_ischanged_fixpoint_witness :
    ((((ofLength 8).Add 1).Add 2).UnionIsChanged ((ofLength 8).Add 2)).1 =
        false ↔
      ((((ofLength 8).Add 1).Add 2).Union ((ofLength 8).Add 2)).data_ =
        (((ofLength 8).Add 1).Add 2).data_ :=
  (C4_ischanged_fixpoint (((ofLength 8).Add 1).Add 2) ((ofLength 8).Add 2)
      (by decide)).2.1

/-! ### Claim C5 -/

/-- Claim C5: over well-formed vectors of equal length, `Union` and
`Intersect` are commutative and associative, `Subtract(A, A)` is empty,
`Union` with the empty vector is the identity, and `Intersect` with the empty
vector is empty. -/
theorem C5_set_algebra (a b c : BitVector) (ha : a.WF) (hb : b.WF) (hc : c.WF)
    (hab : a.length_ = b.length_) (hbc : b.length_ = c.length_) :
    a.Union b = b.Union a ∧
    (a.Union b).Union c = a.Union (b.Union c) ∧
    a.Intersect b = b.Intersect a ∧
    (a.Intersect b).Intersect c = a.Intersect (b.Intersect c) ∧
    (a.Subtract a).IsEmpty = true ∧
    a.Union (ofLength a.length_) = a ∧
    (a.Intersect (ofLength a.length_)).IsEmpty = true := by
  have hnab : a.data_.length = b.data_.length := by
    rw [ha.1, hb.1, hab]
  have hnbc : b.data_.length = c.data_.length := by
    rw [hb.1, hc.1, hbc]
  refine ⟨?_, ?_, ?_, ?_, ?_, ?_, ?_⟩
  · refine @bv_ext (a.Union b) (b.Union a) hab ?_
    show unionData a b = unionData b a
    rw [unionData, unionData, ← hnab]
    exact List.map_congr_left fun i _ => Nat.or_comm _ _
  · refine @bv_ext ((a.Union b).Union c) (a.Union (b.Union c)) rfl ?_
    show unionData (a.Union b) c = unionData a (b.Union c)
    rw [unionData, unionData]
    have h1 : (a.Union b).data_.length = a.data_.length := unionData_length a b
    have h2 : (b.Union c).data_.length = b.data_.length := unionData_length b c
    rw [h1]
    apply List.map_congr_left
    intro i hi
    have hia : i < a.data_.length := List.mem_range.mp hi
    have hib : i < b.data_.length := by omega
    rw [show (a.Union b).data_ = unionData a b from rfl, wordAt_unionData hia,
      show (b.Union c).data_ = unionData b c from rfl, wordAt_unionData hib]
    exact Nat.or_assoc _ _ _
  · refine @bv_ext (a.Intersect b) (b.Intersect a) hab ?_
    show intersectData a b = intersectData b a
    rw [intersectData, intersectData, ← hnab]
    exact List.map_congr_left fun i _ => Nat.and_comm _ _
  · refine @bv_ext ((a.Intersect b).Intersect c) (a.Intersect (b.Intersect c))
      rfl ?_
    show intersectData (a.Intersect b) c = intersectData a (b.Intersect c)
    rw [intersectData, intersectData]
    have h1 : (a.Intersect b).data_.length = a.data_.length :=
      intersectData_length a b
    rw [h1]
    apply List.map_congr_left
    intro i hi
    have hia : i < a.data_.length := List.mem_range.mp hi
    have hib : i < b.data_.length := by omega
    rw [show (a.Intersect b).data_ = intersectData a b from rfl,
      wordAt_intersectData hia,
      show (b.Intersect c).data_ = intersectData b c from rfl,
      wordAt_intersectData hib]
    exact Nat.and_assoc _ _ _
  · rw [IsEmpty, List.all_eq_true]
    intro w hw
    rcases List.mem_map.mp hw with ⟨i, _, rfl⟩
    have hlt : wordAt a.data_ i < 2 ^ 64 := wordAt_lt ha.2 i
    simp [and_cmpl64_self hlt]
  · refine @bv_ext (a.Union (ofLength a.length_)) a rfl ?_
    show unionData a (ofLength a.length_) = a.data_
    rw [unionData, rangeMap_eq_self_iff]
    intro i _
    rw [wordAt_ofLength, Nat.or_zero]
  · rw [IsEmpty, List.all_eq_true]
    intro w hw
    rcases List.mem_map.mp hw with ⟨i, _, rfl⟩
    simp [wordAt_intersectData, wordAt_ofLength]

/-- Claim C5 witness: commutativity instantiated on the length-8 sets `{1}`
and `{2}`. -/
theorem C5_set_algebra_witness :
    ((ofLength 8).Add 1).Union ((ofLength 8).Add 2) =
      ((ofLength 8).Add 2).Union ((ofLength 8).Add 1) :=
  (C5_set_algebra ((ofLength 8).Add 1) ((ofLength 8).Add 2)
      ((ofLength 8).Add 3) (by decide) (by decide) (by decide) (by decide)
      (by decide)).1

/-! ### hasBitAt lemmas -/

theorem hasBitAt_eq_testBit {data : List Nat} {idx o : Nat} (ho : o < 64) :
    hasBitAt data (64 * idx + o) = (wordAt data idx).testBit o := by
  have hdiv : (64 * idx + o) / 64 = idx := by omega
  have hmod : (64 * idx + o) % 64 = o := by omega
  rw [hasBitAt, hdiv, hmod]

theorem hasBitAt_false_of_ge {data : List Nat} {k : Nat}
    (h : 64 * data.length ≤ k) : hasBitAt data k = false := by
  rw [hasBitAt, wordAt_default (by omega : data.length ≤ k / 64)]
  exact Nat.zero_testBit _

theorem hasBitAt_lt_of_true {data : List Nat} {k : Nat}
    (h : hasBitAt data k = true) : k < 64 * data.length := by
  by_contra hk
  rw [hasBitAt_false_of_ge (by omega)] at h
  cases h

end BitVector

namespace Iterator

open BitVector

/-! ### Exact specifications of the skip helpers and the word loop -/

theorem and255_testBit {val u : Nat} (h : val &&& 255 = 0) (hu : u < 8) :
    val.testBit u = false := by
  have h1 : (val &&& 255).testBit u = false := by
    rw [h]; exact Nat.zero_testBit u
  rw [Nat.testBit_and] at h1
  have h2 : (255 : Nat).testBit u = true := by
    have h8 : (255 : Nat) = 2 ^ 8 - 1 := by norm_num
    rw [h8, Nat.testBit_two_pow_sub_one]
    simpa using hu
  simpa [h2] using h1

theorem SkipZeroBytes_spec (val : Nat) (cur : Int) :
    val ≠ 0 → ∃ d, SkipZeroBytes val cur = (val >>> d, cur + d) ∧
      ∀ u, u < d → val.testBit u = false := by
  induction val, cur using SkipZeroBytes.induct with
  | case1 val cur hcond ih =>
    intro _
    have hnz : val >>> 8 ≠ 0 := by
      have h255 : val &&& 255 = val % 256 := by
        have h : (255 : Nat) = 2 ^ 8 - 1 := by norm_num
        rw [h, Nat.and_pow_two_sub_one_eq_mod]
      have hmod : val % 256 = 0 := by rw [← h255]; exact hcond.2
      intro hz
      have h8 : val >>> 8 = val / 2 ^ 8 := Nat.shiftRight_eq_div_pow val 8
      rw [hz] at h8
      norm_num at h8
      exact hcond.1 (by omega)
    rcases ih hnz with ⟨d, hd, hbits⟩
    refine ⟨8 + d, ?_, ?_⟩
    · rw [SkipZeroBytes, dif_pos hcond, hd, Nat.shiftRight_add]
      congr 1
      push_cast
      ring
    · intro u hu
      by_cases h8 : u < 8
      · exact and255_testBit hcond.2 h8
      · have hb := hbits (u - 8) (by omega)
        have heq : val.testBit u = (val >>> 8).testBit (u - 8) := by
          rw [Nat.testBit_shiftRight]
          congr 1
          omega
        rw [heq]
        exact hb
  | case2 val cur hcond =>
    intro _
    refine ⟨0, ?_, ?_⟩
    · rw [SkipZeroBytes, dif_neg hcond]
      simp
    · intro u hu
      exact absurd hu (Nat.not_lt_zero u)

theorem SkipZeroBits_spec (val : Nat) (cur : Int) :
    val ≠ 0 → ∃ d, SkipZeroBits val cur = (val >>> d, cur + d) ∧
      (val >>> d).testBit 0 = true ∧ ∀ u, u < d → val.testBit u = false := by
  induction val, cur using SkipZeroBits.induct with
  | case1 val cur hcond ih =>
    intro _
    have h1' : val &&& 1 = val % 2 := by
      have h : val &&& 1 = val &&& (2 ^ 1 - 1) := by norm_num
      rw [h, Nat.and_pow_two_sub_one_eq_mod]
    have hmod : val % 2 = 0 := by rw [← h1']; exact hcond.2
    have hnz : val >>> 1 ≠ 0 := by
      intro hz
      have h2 : val >>> 1 = val / 2 ^ 1 := Nat.shiftRight_eq_div_pow val 1
      rw [hz] at h2
      norm_num at h2
      exact hcond.1 (by omega)
    rcases ih hnz with ⟨d, hd, hbit0, hbits⟩
    refine ⟨1 + d, ?_, ?_, ?_⟩
    · rw [SkipZeroBits, dif_pos hcond, hd, Nat.shiftRight_add]
      congr 1
      push_cast
      ring
    · rw [Nat.shiftRight_add]
      exact hbit0
    · intro u hu
      by_cases h1 : u = 0
      · subst h1
        rw [Nat.testBit_zero]
        simp [hmod]
      · have hb := hbits (u - 1) (by omega)
        have heq : val.testBit u = (val >>> 1).testBit (u - 1) := by
          rw [Nat.testBit_shiftRight]
          congr 1
          omega
        rw [heq]
        exact hb
  | case2 val cur hcond =>
    intro h0
    have h1' : val &&& 1 = val % 2 := by
      have h : val &&& 1 = val &&& (2 ^ 1 - 1) := by norm_num
      rw [h, Nat.and_pow_two_sub_one_eq_mod]
    have hone : val &&& 1 ≠ 0 := fun hz => hcond ⟨h0, hz⟩
    refine ⟨0, ?_, ?_, ?_⟩
    · rw [SkipZeroBits, dif_neg hcond]
      simp
    · rw [Nat.shiftRight_zero, Nat.testBit_zero]
      have hm : val % 2 = 1 := by omega
      simp [hm]
    · intro u hu
      exact absurd hu (Nat.not_lt_zero u)

theorem skipPair_spec (val : Nat) (cur : Int) (h : val ≠ 0) :
    ∃ d, SkipZeroBits (SkipZeroBytes val cur).1 (SkipZeroBytes val cur).2 =
        (val >>> d, cur + d) ∧ (val >>> d).testBit 0 = true ∧
      ∀ u, u < d → val.testBit u = false := by
  rcases SkipZeroBytes_spec val cur h with ⟨d1, hd1, hb1⟩
  have hnz : (SkipZeroBytes val cur).1 ≠ 0 := SkipZeroBytes_fst_ne_zero val cur h
  rcases SkipZeroBits_spec (SkipZeroBytes val cur).1 (SkipZeroBytes val cur).2
      hnz with ⟨d2, hd2, hb0, hb2⟩
  simp only [hd1] at hd2 hb0 hb2
  refine ⟨d1 + d2, ?_, ?_, ?_⟩
  · simp only [hd1]
    rw [hd2, Nat.shiftRight_add]
    congr 1
    push_cast
    ring
  · rw [Nat.shiftRight_add]
    exact hb0
  · intro u hu
    by_cases hu1 : u < d1
    · exact hb1 u hu1
    · have hb := hb2 (u - d1) (by omega)
      have heq : val.testBit u = (val >>> d1).testBit (u - d1) := by
        rw [Nat.testBit_shiftRight]
        congr 1
        omega
      rw [heq]
      exact hb

theorem findWord_none_spec (data : List Nat) (idx : Nat) :
    findWord data idx = none →
      ∀ j, idx ≤ j → j < data.length → wordAt data j = 0 := by
  induction idx using findWord.induct data with
  | case1 x hx hw ih =>
    intro h j hj hjlen
    rw [findWord, if_pos hx, if_pos hw] at h
    rcases Nat.eq_or_lt_of_le hj with rfl | hlt
    · exact hw
    · exact ih h j hlt hjlen
  | case2 x hx hw =>
    intro h
    rw [findWord, if_pos hx, if_neg hw] at h
    exact absurd h (by simp)
  | case3 x hx =>
    intro _ j hj hjlen
    omega

theorem findWord_some_spec (data : List Nat) (idx : Nat) (p : Nat × Nat) :
    findWord data idx = some p →
      idx ≤ p.1 ∧ p.1 < data.length ∧ p.2 = wordAt data p.1 ∧ p.2 ≠ 0 ∧
      ∀ j, idx ≤ j → j < p.1 → wordAt data j = 0 := by
  induction idx using findWord.induct data with
  | case1 x hx hw ih =>
    intro h
    rw [findWord, if_pos hx, if_pos hw] at h
    rcases ih h with ⟨h1, h2, h3, h4, h5⟩
    refine ⟨by omega, h2, h3, h4, ?_⟩
    intro j hj hjp
    rcases Nat.eq_or_lt_of_le hj with rfl | hlt
    · exact hw
    · exact h5 j hlt hjp
  | case2 x hx hw =>
    intro h
    rw [findWord, if_pos hx, if_neg hw] at h
    cases h
    exact ⟨le_refl _, hx, rfl, hw, fun j hj hjp => by omega⟩
  | case3 x hx =>
    intro h
    rw [findWord, if_neg hx] at h
    exact absurd h (by simp)

/-- One `Advance` from a coherent scan position `q` either stops at the first
set bit `m ≥ q` (leaving a coherent state at `m + 1`), or, when no set bit
remains, reaches the done state. -/
theorem advance_spec {data : List Nat} (hbound : ∀ w ∈ data, w < 2 ^ 64)
    {st : Iterator} {q : Nat} (hst : PreState st data q) :
    (∃ m, isNextBit data q m ∧ PreState (Advance st) data (m + 1) ∧
      (Advance st).current_ = (m : Int) ∧ (Advance st).Done = false) ∨
    ((∀ u, q ≤ u → hasBitAt data u = false) ∧ (Advance st).Done = true) := by
  obtain ⟨hdata, hidx, hq1, hq2, hval, hcur⟩ := hst
  have hw64 : wordAt data st.current_index_ < 2 ^ 64 := wordAt_lt hbound _
  by_cases hv : st.current_value_ = 0
  · -- the current word is exhausted at offsets ≥ s
    have hvs : wordAt data st.current_index_ >>> (q - 64 * st.current_index_)
        = 0 := by rw [← hval]; exact hv
    have htail : ∀ o, q - 64 * st.current_index_ ≤ o →
        (wordAt data st.current_index_).testBit o = false := by
      intro o hso
      have hz : (wordAt data st.current_index_ >>>
          (q - 64 * st.current_index_)).testBit
            (o - (q - 64 * st.current_index_)) = false := by
        rw [hvs]; exact Nat.zero_testBit _
      rw [Nat.testBit_shiftRight] at hz
      have heq : q - 64 * st.current_index_ +
          (o - (q - 64 * st.current_index_)) = o := by omega
      rw [heq] at hz
      exact hz
    have hlow : ∀ u, q ≤ u → u < 64 * (st.current_index_ + 1) →
        hasBitAt data u = false := by
      intro u hqu hu
      have ho : u = 64 * st.current_index_ + (u - 64 * st.current_index_) := by
        omega
      rw [ho, hasBitAt_eq_testBit (by omega)]
      exact htail _ (by omega)
    rcases hfw : findWord st.data (st.current_index_ + 1) with _ | p
    · -- no further non-zero word: done
      right
      have hfw' : findWord data (st.current_index_ + 1) = none := by
        rw [← hdata]; exact hfw
      refine ⟨?_, ?_⟩
      · intro u hqu
        by_cases hu1 : u < 64 * (st.current_index_ + 1)
        · exact hlow u hqu hu1
        · by_cases hulen : u < 64 * data.length
          · rw [hasBitAt,
              findWord_none_spec data (st.current_index_ + 1) hfw' (u / 64)
                (by omega) (by omega)]
            exact Nat.zero_testBit _
          · exact hasBitAt_false_of_ge (by omega)
      · have hAdv : Advance st = { st with
            current_index_ := st.data.length,
            current_ := st.current_ + 1 } := by
          simp only [Advance, hfw]
          rw [if_neg (by simp [hv])]
        simp only [Done, hAdv, hdata, ge_iff_le, decide_eq_true_eq]
        exact le_refl _
    · -- a later non-zero word exists
      left
      obtain ⟨i, w'⟩ := p
      have hfw' : findWord data (st.current_index_ + 1) = some (i, w') := by
        rw [← hdata]; exact hfw
      obtain ⟨hi1, hi2, hw'eq, hw'ne, hmid⟩ :=
        findWord_some_spec data (st.current_index_ + 1) (i, w') hfw'
      dsimp only at hi1 hi2 hw'eq hw'ne hmid
      obtain ⟨d, hpair, hbit0, hbits⟩ := skipPair_spec w' ((i : Int) * 64) hw'ne
      have hAdv : Advance st = { st with
          current_index_ := i,
          current_ := (i : Int) * 64 + d,
          current_value_ := (w' >>> d) >>> 1 } := by
        simp only [Advance, hfw]
        rw [if_neg (by simp [hv])]
        simp only [hpair]
      have hbitd : w'.testBit d = true := by
        have h0 := hbit0
        rw [Nat.testBit_shiftRight] at h0
        simpa using h0
      have hw'64 : w' < 2 ^ 64 := by
        rw [hw'eq]; exact wordAt_lt hbound i
      have hd64 : d < 64 := by
        by_contra hge
        have hgew : 2 ^ d ≤ w' := Nat.testBit_implies_ge hbitd
        have hmono : (2 : Nat) ^ 64 ≤ 2 ^ d :=
          Nat.pow_le_pow_right (by norm_num) (by omega)
        omega
      refine ⟨64 * i + d, ⟨by omega, ?_, ?_⟩, ⟨?_, ?_, ?_, ?_, ?_, ?_⟩, ?_, ?_⟩
      · rw [hasBitAt_eq_testBit hd64, ← hw'eq]
        exact hbitd
      · intro u hqu hum
        by_cases hu1 : u < 64 * (st.current_index_ + 1)
        · exact hlow u hqu hu1
        · by_cases hu2 : u < 64 * i
          · rw [hasBitAt, hmid (u / 64) (by omega) (by omega)]
            exact Nat.zero_testBit _
          · have ho : u = 64 * i + (u - 64 * i) := by omega
            rw [ho, hasBitAt_eq_testBit (by omega), ← hw'eq]
            exact hbits _ (by omega)
      · rw [hAdv]; exact hdata
      · rw [hAdv]; exact hi2
      · rw [hAdv]; show 64 * i ≤ 64 * i + d + 1; omega
      · rw [hAdv]; show 64 * i + d + 1 ≤ 64 * i + 64; omega
      · rw [hAdv]
        show (w' >>> d) >>> 1 = wordAt data i >>> (64 * i + d + 1 - 64 * i)
        rw [← hw'eq, ← Nat.shiftRight_add]
        congr 1
        omega
      · rw [hAdv]
        show (i : Int) * 64 + d = ((64 * i + d + 1 : Nat) : Int) - 1
        push_cast
        ring
      · rw [hAdv]
        show (i : Int) * 64 + d = ((64 * i + d : Nat) : Int)
        push_cast
        ring
      · simp only [Done, hAdv, hdata, ge_iff_le, decide_eq_false_iff_not,
          Nat.not_le]
        exact hi2
  · -- bits remain in the current word
    left
    have hs64 : q - 64 * st.current_index_ < 64 := by
      rcases Nat.lt_or_ge (q - 64 * st.current_index_) 64 with h | h
      · exact h
      · exfalso
        apply hv
        rw [hval, Nat.shiftRight_eq_div_pow]
        apply Nat.div_eq_of_lt
        calc wordAt data st.current_index_ < 2 ^ 64 := hw64
          _ ≤ 2 ^ (q - 64 * st.current_index_) :=
            Nat.pow_le_pow_right (by norm_num) (by omega)
    obtain ⟨d, hpair, hbit0, hbits⟩ :=
      skipPair_spec st.current_value_ (st.current_ + 1) hv
    have hAdv : Advance st = { st with
        current_ := st.current_ + 1 + d,
        current_value_ := (st.current_value_ >>> d) >>> 1 } := by
      simp only [Advance]
      rw [if_pos hv]
      simp only [hpair]
    have hsd : (wordAt data st.current_index_).testBit
        (q - 64 * st.current_index_ + d) = true := by
      have h0 := hbit0
      rw [hval, ← Nat.shiftRight_add, Nat.testBit_shiftRight] at h0
      simpa using h0
    have hsd64 : q - 64 * st.current_index_ + d < 64 := by
      by_contra hge
      have hgew : 2 ^ (q - 64 * st.current_index_ + d) ≤
          wordAt data st.current_index_ := Nat.testBit_implies_ge hsd
      have hmono : (2 : Nat) ^ 64 ≤ 2 ^ (q - 64 * st.current_index_ + d) :=
        Nat.pow_le_pow_right (by norm_num) (by omega)
      omega
    refine ⟨q + d, ⟨by omega, ?_, ?_⟩, ⟨?_, ?_, ?_, ?_, ?_, ?_⟩, ?_, ?_⟩
    · have hqm : q + d = 64 * st.current_index_ +
          (q - 64 * st.current_index_ + d) := by omega
      rw [hqm, hasBitAt_eq_testBit hsd64]
      exact hsd
    · intro u hqu hum
      have ho : u = 64 * st.current_index_ +
          (q - 64 * st.current_index_ + (u - q)) := by omega
      rw [ho, hasBitAt_eq_testBit (by omega)]
      have hb := hbits (u - q) (by omega)
      rw [hval, Nat.testBit_shiftRight] at hb
      exact hb
    · rw [hAdv]; exact hdata
    · rw [hAdv]; exact hidx
    · rw [hAdv]; show 64 * st.current_index_ ≤ q + d + 1; omega
    · rw [hAdv]; show q + d + 1 ≤ 64 * st.current_index_ + 64; omega
    · rw [hAdv]
      show (st.current_value_ >>> d) >>> 1 =
        wordAt data st.current_index_ >>> (q + d + 1 - 64 * st.current_index_)
      rw [hval, ← Nat.shiftRight_add, ← Nat.shiftRight_add]
      congr 1
      omega
    · rw [hAdv]
      show st.current_ + 1 + d = ((q + d + 1 : Nat) : Int) - 1
      rw [hcur]
      push_cast
      ring
    · rw [hAdv]
      show st.current_ + 1 + d = ((q + d : Nat) : Int)
      rw [hcur]
      push_cast
      ring
    · simp only [Done, hAdv, hdata, ge_iff_le, decide_eq_false_iff_not,
        Nat.not_le]
      exact hidx

/-- In a strictly sorted list, filtering by `q ≤ ·` when `m` is the least
element `≥ q` splits off `m`. -/
theorem filter_ge_of_least {l : List Nat} (hsort : l.Pairwise (· < ·))
    {q m : Nat} (hmem : m ∈ l) (hq : q ≤ m)
    (hmin : ∀ u ∈ l, q ≤ u → m ≤ u) :
    l.filter (fun k => decide (q ≤ k)) =
      m :: l.filter (fun k => decide (m + 1 ≤ k)) := by
  induction l with
  | nil => cases hmem
  | cons x xs ih =>
    have hpw := List.pairwise_cons.mp hsort
    rcases List.mem_cons.mp hmem with rfl | hmx
    · have hr : List.filter (fun k => decide (m + 1 ≤ k)) (m :: xs) =
          List.filter (fun k => decide (m + 1 ≤ k)) xs := by
        rw [List.filter_cons, if_neg (by simp)]
      rw [hr, List.filter_cons, if_pos (by simpa using hq)]
      congr 1
      apply List.filter_congr
      intro u hu
      have hlt : m < u := hpw.1 u hu
      have t1 : decide (q ≤ u) = true := by simp only [decide_eq_true_eq]; omega
      have t2 : decide (m + 1 ≤ u) = true := by
        simp only [decide_eq_true_eq]; omega
      rw [t1, t2]
    · have hxm : x < m := hpw.1 m hmx
      have hnqx : ¬ q ≤ x := fun hqx => by
        have := hmin x (List.mem_cons_self x xs) hqx
        omega
      rw [List.filter_cons, if_neg (by simpa using hnqx), List.filter_cons,
        if_neg (by simp only [decide_eq_true_eq]; omega)]
      exact ih hpw.2 hmx fun u hu hqu => hmin u (List.mem_cons_of_mem _ hu) hqu

/-- Traversal from a coherent scan position `q` reads off exactly the set
bits at positions `≥ q`, in order. -/
theorem toList_advance (data : List Nat) (hbound : ∀ w ∈ data, w < 2 ^ 64) :
    ∀ n q st, 64 * data.length ≤ q + n → PreState st data q →
      (Advance st).toList =
        ((setBitsList data).filter fun k => decide (q ≤ k)).map
          Int.ofNat := by
  intro n
  induction n with
  | zero =>
    intro q st hbnd hst
    rcases advance_spec hbound hst with ⟨m, hnext, _, _, _⟩ | ⟨_, hdone⟩
    · exfalso
      have hm := hasBitAt_lt_of_true hnext.2.1
      have := hnext.1
      omega
    · rw [toList, dif_pos hdone]
      have hnil : (setBitsList data).filter (fun k => decide (q ≤ k)) = [] := by
        rw [List.filter_eq_nil_iff]
        intro k hk
        have hklt : k < 64 * data.length :=
          List.mem_range.mp (List.mem_filter.mp hk).1
        simp only [decide_eq_true_eq]
        omega
      rw [hnil]
      rfl
  | succ n ih =>
    intro q st hbnd hst
    rcases advance_spec hbound hst with ⟨m, hnext, hpre, hcur, hnd⟩ |
      ⟨hnone, hdone⟩
    · rw [toList, dif_neg (by simp [hnd])]
      have hstep := ih (m + 1) (Advance st)
        (by have := hnext.1; omega) hpre
      rw [hstep, Current, hcur]
      have hm64 : m < 64 * data.length := hasBitAt_lt_of_true hnext.2.1
      have hmem : m ∈ setBitsList data := by
        rw [setBitsList, List.mem_filter]
        exact ⟨List.mem_range.mpr hm64, hnext.2.1⟩
      have hsort : (setBitsList data).Pairwise (· < ·) :=
        (List.pairwise_lt_range _).filter _
      have hmin : ∀ u ∈ setBitsList data, q ≤ u → m ≤ u := by
        intro u hu hqu
        by_contra hum
        have hz := hnext.2.2 u hqu (by omega)
        have hbit := (List.mem_filter.mp hu).2
        rw [hz] at hbit
        cases hbit
      rw [filter_ge_of_least hsort hmem hnext.1 hmin, List.map_cons]
      rfl
    · rw [toList, dif_pos hdone]
      have hnil : (setBitsList data).filter (fun k => decide (q ≤ k)) = [] := by
        rw [List.filter_eq_nil_iff]
        intro k hk
        have hbit := (List.mem_filter.mp hk).2
        simp only [decide_eq_true_eq]
        intro hqk
        have h0 := hnone k hqk
        rw [h0] at hbit
        cases hbit
      rw [hnil]
      rfl

/-- The full traversal of a well-formed `BitVector` reads off exactly its set
bits, in ascending order. -/
theorem ofTarget_toList (b : BitVector) (hb : b.WF) :
    (ofTarget b).toList = (setBitsList b.data_).map Int.ofNat := by
  have hlen : 0 < b.data_.length := by
    rw [hb.1]; exact SizeFor_pos _
  have hpre : PreState ⟨b.data_, 0, wordAt b.data_ 0, -1⟩ b.data_ 0 := by
    refine ⟨rfl, ?_, ?_, ?_, ?_, ?_⟩
    · exact hlen
    · show 64 * 0 ≤ 0
      omega
    · show (0 : Nat) ≤ 64 * 0 + 64
      omega
    · show wordAt b.data_ 0 = wordAt b.data_ 0 >>> (0 - 64 * 0)
      norm_num
    · show (-1 : Int) = ((0 : Nat) : Int) - 1
      norm_num
  have h := toList_advance b.data_ hb.2 (64 * b.data_.length) 0
    ⟨b.data_, 0, wordAt b.data_ 0, -1⟩ (by omega) hpre
  rw [ofTarget, h]
  congr 1
  apply List.filter_eq_self.mpr
  intro k _
  simp

/-- A finished traversal means the iterator is done. -/
theorem done_of_toList_nil {it : Iterator} (h : it.toList = []) :
    it.Done = true := by
  by_contra hnd
  rw [toList, dif_neg hnd] at h
  cases h

end Iterator

namespace BitVector

/-! ### Population count -/

theorem popcnt_rec (n : Nat) : popcnt n = popcnt (n / 2) + n % 2 := by
  by_cases h : n = 0
  · subst h
    simp [popcnt]
  · conv_lhs => rw [popcnt]
    rw [if_neg h]

theorem popcnt_eq_count : ∀ n (w : Nat), w < 2 ^ n →
    popcnt w = ((List.range n).filter fun j => w.testBit j).length := by
  intro n
  induction n with
  | zero =>
    intro w hw
    norm_num at hw
    subst hw
    simp [popcnt]
  | succ n ih =>
    intro w hw
    rw [popcnt_rec w]
    have hw2 : w / 2 < 2 ^ n := by
      have h2 : (2 : Nat) ^ (n + 1) = 2 * 2 ^ n := by ring
      omega
    rw [ih (w / 2) hw2, List.range_succ_eq_map, List.filter_cons]
    have hfc : (List.range n).filter ((fun j => w.testBit j) ∘ Nat.succ) =
        (List.range n).filter fun j => (w / 2).testBit j := by
      apply List.filter_congr
      intro u _
      simp [Function.comp, Nat.testBit_succ]
    by_cases hb : w.testBit 0
    · have hm : w % 2 = 1 := by
        rw [Nat.testBit_zero] at hb
        simpa using hb
      rw [if_pos (by simpa using hb), List.length_cons, List.filter_map,
        List.length_map, hfc]
      omega
    · have hm : w % 2 = 0 := by
        rw [Nat.testBit_zero] at hb
        simp only [decide_eq_true_eq] at hb
        omega
      rw [if_neg (by simpa using hb), List.filter_map, List.length_map, hfc]
      omega

theorem setBitsList_length (data : List Nat)
    (hbound : ∀ w ∈ data, w < 2 ^ 64) :
    (setBitsList data).length = (data.map popcnt).sum := by
  induction data with
  | nil => rfl
  | cons w rest ih =>
    have hw : w < 2 ^ 64 := hbound w (by simp)
    have hrest : ∀ x ∈ rest, x < 2 ^ 64 := fun x hx =>
      hbound x (List.mem_cons_of_mem _ hx)
    rw [setBitsList]
    have hlen : 64 * (w :: rest).length = 64 + 64 * rest.length := by
      rw [List.length_cons]
      ring
    rw [hlen, List.range_add, List.filter_append, List.length_append]
    have h1 : (List.range 64).filter (fun k => hasBitAt (w :: rest) k) =
        (List.range 64).filter fun k => w.testBit k := by
      apply List.filter_congr
      intro k hk
      have hk64 : k < 64 := List.mem_range.mp hk
      have hd : k / 64 = 0 := by omega
      have hm : k % 64 = k := by omega
      rw [hasBitAt, hd, hm]
      rfl
    have h2 : ∀ k, hasBitAt (w :: rest) (64 + k) = hasBitAt rest k := by
      intro k
      have hd : (64 + k) / 64 = k / 64 + 1 := by omega
      have hm : (64 + k) % 64 = k % 64 := by omega
      rw [hasBitAt, hasBitAt, hd, hm]
      rfl
    have h3 : ((List.range (64 * rest.length)).map (64 + ·)).filter
          (fun k => hasBitAt (w :: rest) k) =
        ((List.range (64 * rest.length)).filter
          fun k => hasBitAt rest k).map (64 + ·) := by
      rw [List.filter_map]
      congr 1
      apply List.filter_congr
      intro k _
      simp only [Function.comp]
      exact h2 k
    rw [h1, h3, List.length_map, ← popcnt_eq_count 64 w hw]
    rw [show ((List.range (64 * rest.length)).filter
        fun k => hasBitAt rest k) = setBitsList rest from rfl]
    rw [ih hrest, List.map_cons, List.sum_cons]

/-! ### Claim C6 -/

/-- Claim C6: a full iterator traversal of a well-formed `BitVector` yields
exactly the indices of the set bits of the word array in strictly ascending
order, the number of yielded indices equals `Count()`, and on an empty vector
the iterator is done immediately after construction and yields nothing. -/
theorem C6_iterator_yields_set_bits (b : BitVector) (hb : b.WF) :
    (Iterator.ofTarget b).toList = (setBitsList b.data_).map Int.ofNat ∧
    (Iterator.ofTarget b).toList.length = b.Count ∧
    (Iterator.ofTarget b).toList.Pairwise (· < ·) ∧
    (b.IsEmpty = true →
      (Iterator.ofTarget b).Done = true ∧ (Iterator.ofTarget b).toList = []) := by
  have hmain := Iterator.ofTarget_toList b hb
  refine ⟨hmain, ?_, ?_, ?_⟩
  · rw [hmain, List.length_map, setBitsList_length b.data_ hb.2]
    rfl
  · rw [hmain]
    rw [List.pairwise_map]
    apply List.Pairwise.imp (fun h => ?_) ((List.pairwise_lt_range _).filter _)
    exact Int.ofNat_lt.mpr h
  · intro hemp
    have hz : ∀ i, wordAt b.data_ i = 0 := by
      intro i
      by_cases hi : i < b.data_.length
      · rw [wordAt_eq_getElem hi]
        have := List.all_eq_true.mp hemp _ (List.getElem_mem hi)
        simpa using this
      · exact wordAt_default (Nat.le_of_not_lt hi)
    have hsb : setBitsList b.data_ = [] := by
      rw [setBitsList, List.filter_eq_nil_iff]
      intro k _
      rw [hasBitAt, hz]
      simp
    have hnil : (Iterator.ofTarget b).toList = [] := by
      rw [hmain, hsb]
      rfl
    exact ⟨Iterator.done_of_toList_nil hnil, hnil⟩

/-- Claim C6 witness: the length-10 set `{2, 5, 9}` yields `[2, 5, 9]` and
counts 3. -/
theorem C6_iterator_yields_set_bits_witness :
    (Iterator.ofTarget ((((ofLength 10).Add 2).Add 5).Add 9)).toList =
        [(2 : Int), 5, 9] ∧
      ((((ofLength 10).Add 2).Add 5).Add 9).Count = 3 := by
  have h := C6_iterator_yields_set_bits ((((ofLength 10).Add 2).Add 5).Add 9)
    (by decide)
  constructor
  · rw [h.1]
    decide
  · rw [← h.2.1, h.1]
    decide

/-! ### Pointwise `Contains` descriptions of every operation -/

theorem Contains_ofLength (L i : Nat) : (ofLength L).Contains i = false := by
  rw [Contains_eq_hasBitAt, hasBitAt, wordAt_ofLength]
  exact Nat.zero_testBit _

theorem Contains_Clear (b : BitVector) (i : Nat) :
    (b.Clear).Contains i = false := by
  rw [Contains_eq_hasBitAt, hasBitAt]
  have h : wordAt (b.Clear).data_ (i / 64) = 0 := by
    rw [Clear]
    show wordAt (List.replicate b.data_.length 0) (i / 64) = 0
    rw [wordAt_replicate]
    split <;> rfl
  rw [h]
  exact Nat.zero_testBit _

theorem Contains_Add (b : BitVector) (i j : Nat) (hb : b.WF)
    (hi : i < b.length_) :
    (b.Add i).Contains j = (decide (j = i) || b.Contains j) := by
  have hidx : i / 64 < b.data_.length := by
    rw [hb.1]; exact div64_lt_SizeFor hi
  rw [Contains_eq_hasBitAt, Contains_eq_hasBitAt, hasBitAt, hasBitAt]
  show (wordAt (b.data_.set (i / 64)
      (wordAt b.data_ (i / 64) ||| (1 <<< (i % 64)))) (j / 64)).testBit
        (j % 64) = _
  by_cases hw : i / 64 = j / 64
  · rw [hw] at hidx ⊢
    rw [wordAt_set_self _ hidx, ← hw, Nat.one_shiftLeft, Nat.testBit_or,
      Nat.testBit_two_pow]
    by_cases hj : j = i
    · subst hj
      simp [Bool.or_comm]
    · have hm : i % 64 ≠ j % 64 := by omega
      simp [hj, hm]
  · rw [wordAt_set_ne _ hw]
    have hj : j ≠ i := fun h => hw (by rw [h])
    simp [hj]

theorem Contains_Remove (b : BitVector) (i j : Nat) (hb : b.WF)
    (hi : i < b.length_) :
    (b.Remove i).Contains j = (!decide (j = i) && b.Contains j) := by
  have hidx : i / 64 < b.data_.length := by
    rw [hb.1]; exact div64_lt_SizeFor hi
  have hj64 : j % 64 < 64 := Nat.mod_lt _ (by norm_num)
  rw [Contains_eq_hasBitAt, Contains_eq_hasBitAt, hasBitAt, hasBitAt]
  show (wordAt (b.data_.set (i / 64)
      (wordAt b.data_ (i / 64) &&& cmpl64 (1 <<< (i % 64)))) (j / 64)).testBit
        (j % 64) = _
  by_cases hw : i / 64 = j / 64
  · rw [hw] at hidx ⊢
    rw [wordAt_set_self _ hidx, ← hw, Nat.one_shiftLeft, Nat.testBit_and,
      testBit_cmpl64, Nat.testBit_two_pow]
    by_cases hj : j = i
    · subst hj
      simp [hj64]
    · have hm : i % 64 ≠ j % 64 := by omega
      simp [hj, hm, hj64, Bool.and_comm]
  · rw [wordAt_set_ne _ hw]
    have hj : j ≠ i := fun h => hw (by rw [h])
    simp [hj]

theorem Contains_Subtract (a b : BitVector) (k : Nat) :
    (a.Subtract b).Contains k = (a.Contains k && !(b.Contains k)) := by
  have hr : k % 64 < 64 := Nat.mod_lt _ (by norm_num)
  rw [Contains_eq_hasBitAt, Contains_eq_hasBitAt, Contains_eq_hasBitAt,
    hasBitAt, hasBitAt, hasBitAt]
  show (wordAt ((List.range a.data_.length).map fun i =>
      wordAt a.data_ i &&& cmpl64 (wordAt b.data_ i)) (k / 64)).testBit
        (k % 64) = _
  rw [wordAt_rangeMap]
  by_cases hk : k / 64 < a.data_.length
  · rw [if_pos hk, Nat.testBit_and, testBit_cmpl64]
    simp [hr]
  · rw [if_neg hk, wordAt_default (Nat.le_of_not_lt hk)]
    simp

theorem Contains_Intersect (a b : BitVector) (k : Nat) :
    (a.Intersect b).Contains k = (a.Contains k && b.Contains k) := by
  rw [Contains_eq_hasBitAt, Contains_eq_hasBitAt, Contains_eq_hasBitAt,
    hasBitAt, hasBitAt, hasBitAt]
  show (wordAt (intersectData a b) (k / 64)).testBit (k % 64) = _
  rw [intersectData, wordAt_rangeMap]
  by_cases hk : k / 64 < a.data_.length
  · rw [if_pos hk, Nat.testBit_and]
  · rw [if_neg hk, wordAt_default (Nat.le_of_not_lt hk)]
    simp

theorem Contains_Union (a b : BitVector) (k : Nat)
    (hlen : b.data_.length ≤ a.data_.length) :
    (a.Union b).Contains k = (a.Contains k || b.Contains k) := by
  rw [Contains_eq_hasBitAt, Contains_eq_hasBitAt, Contains_eq_hasBitAt,
    hasBitAt, hasBitAt, hasBitAt]
  show (wordAt (unionData a b) (k / 64)).testBit (k % 64) = _
  rw [unionData, wordAt_rangeMap]
  by_cases hk : k / 64 < a.data_.length
  · rw [if_pos hk, Nat.testBit_or]
  · rw [if_neg hk, wordAt_default (Nat.le_of_not_lt hk),
      wordAt_default (by omega : b.data_.length ≤ k / 64)]
    simp

theorem Contains_copy (b : BitVector) (hb : b.WF) (i : Nat) :
    (b.copy).Contains i = b.Contains i := by
  rw [Contains_eq_hasBitAt, Contains_eq_hasBitAt, hasBitAt, hasBitAt]
  show (wordAt (copyWords (SizeFor b.length_) b.data_) (i / 64)).testBit
      (i % 64) = _
  rw [wordAt_copyWords]
  by_cases hk : i / 64 < SizeFor b.length_
  · rw [if_pos hk, if_pos (by rw [hb.1]; exact hk)]
  · rw [if_neg hk, wordAt_default (by rw [hb.1]; omega)]

theorem copy_length (b : BitVector) : (b.copy).length_ = b.length_ := rfl

theorem Resize_Contains_low (b : BitVector) {i L2 : Nat} (hb : b.WF)
    (hi : i < b.length_) : (b.Resize L2).Contains i = b.Contains i := by
  have hidx : i / 64 < b.data_.length := by
    rw [hb.1]; exact div64_lt_SizeFor hi
  rw [Contains_eq_hasBitAt, Contains_eq_hasBitAt, hasBitAt, hasBitAt,
    wordAt_Resize_lt _ _ hidx]

theorem Resize_Contains_high (b : BitVector) {i L2 : Nat} (hb : b.WF)
    (hp : b.PaddingZero) (hle : b.length_ ≤ i) :
    (b.Resize L2).Contains i = false := by
  rw [Contains_eq_hasBitAt, hasBitAt]
  by_cases hidx : i / 64 < b.data_.length
  · rw [wordAt_Resize_lt _ _ hidx]
    exact hp i (by omega) hle
  · rw [wordAt_Resize_ge _ _ (Nat.le_of_not_lt hidx)]
    exact Nat.zero_testBit _

/-! ### Preservation of the representation invariants -/

theorem WF_ofLength (L : Nat) : (ofLength L).WF := by
  constructor
  · simp [ofLength]
  · intro w hw
    have := List.eq_of_mem_replicate hw
    subst this
    positivity

theorem shift_lt_two_pow (i : Nat) : (1 <<< (i % 64) : Nat) < 2 ^ 64 := by
  rw [Nat.one_shiftLeft]
  exact Nat.pow_lt_pow_right (by norm_num) (Nat.mod_lt _ (by norm_num))

theorem cmpl64_lt (x : Nat) (hx : x < 2 ^ 64) : cmpl64 x < 2 ^ 64 :=
  Nat.xor_lt_two_pow hx (by rw [allOnes]; omega)

theorem WF_Add (b : BitVector) (i : Nat) (hb : b.WF) : (b.Add i).WF := by
  refine ⟨?_, ?_⟩
  · show (b.data_.set _ _).length = _
    rw [List.length_set]
    exact hb.1
  · intro w hw
    rcases List.mem_or_eq_of_mem_set hw with hmem | rfl
    · exact hb.2 w hmem
    · exact Nat.or_lt_two_pow (wordAt_lt hb.2 _) (shift_lt_two_pow i)

theorem WF_Resize (b : BitVector) (L2 : Nat) (hb : b.WF)
    (hL : b.length_ ≤ L2) : (b.Resize L2).WF := by
  refine ⟨?_, ?_⟩
  · rw [Resize_data_length, Resize_length, hb.1]
    have := SizeFor_le_SizeFor hL
    omega
  · intro w hw
    rw [Resize] at hw
    split at hw
    · rcases List.mem_map.mp hw with ⟨k, _, rfl⟩
      split
      · exact wordAt_lt hb.2 _
      · positivity
    · exact hb.2 w hw

theorem WF_copy (b : BitVector) (hb : b.WF) : (b.copy).WF := by
  refine ⟨?_, ?_⟩
  · show (copyWords (SizeFor b.length_) b.data_).length = _
    rw [copyWords_length, copy_length]
  · intro w hw
    rcases List.mem_map.mp hw with ⟨k, _, rfl⟩
    split
    · exact wordAt_lt hb.2 _
    · positivity

theorem paddingZero_iff_contains (b : BitVector) :
    b.PaddingZero ↔ ∀ k, b.length_ ≤ k → b.Contains k = false := by
  constructor
  · intro h k hk
    rw [Contains_eq_hasBitAt]
    by_cases hlt : k < 64 * b.data_.length
    · exact h k hlt hk
    · exact hasBitAt_false_of_ge (by omega)
  · intro h k _ hk
    rw [← Contains_eq_hasBitAt]
    exact h k hk

theorem PaddingZero_ofLength (L : Nat) : (ofLength L).PaddingZero :=
  (paddingZero_iff_contains _).mpr fun k _ => Contains_ofLength L k

theorem PaddingZero_Resize (b : BitVector) (L2 : Nat) (hb : b.WF)
    (hp : b.PaddingZero) (hL : b.length_ ≤ L2) :
    (b.Resize L2).PaddingZero := by
  rw [paddingZero_iff_contains]
  intro k hk
  rw [Resize_length] at hk
  exact Resize_Contains_high b hb hp (by omega)

theorem mem_setBitsList {data : List Nat} {j : Nat} :
    j ∈ setBitsList data ↔ hasBitAt data j = true := by
  rw [setBitsList, List.mem_filter, List.mem_range]
  exact ⟨fun h => h.2, fun h => ⟨hasBitAt_lt_of_true h, h⟩⟩

end BitVector

namespace GrowableBitVector

open BitVector

/-! ### GrowableBitVector lemmas -/

theorem grow_bounds (n v : Nat) : n ≤ grow n v ∧ (0 < n → v < grow n v) := by
  induction n, v using grow.induct with
  | case1 n v hcond ih =>
    rw [grow, dif_pos hcond]
    exact ⟨le_trans (by omega) ih.1, fun _ => ih.2 (by omega)⟩
  | case2 n v hcond =>
    rw [grow, dif_neg hcond]
    exact ⟨le_refl _, fun hn => by omega⟩

theorem Contains_none (i : Nat) :
    (⟨none⟩ : GrowableBitVector).Contains i = false := rfl

theorem Contains_some (b : BitVector) (i : Nat) :
    (⟨some b⟩ : GrowableBitVector).Contains i =
      if i < b.length_ then b.Contains i else false := by
  by_cases hi : i < b.length_
  · rw [if_pos hi]
    simp [Contains, InBitsRange, hi]
  · rw [if_neg hi]
    simp [Contains, InBitsRange, hi]

theorem EnsureCapacity_spec (g : GrowableBitVector) (v : Nat) (hg : g.Inv) :
    (g.EnsureCapacity v).Inv ∧
    (∃ b', (g.EnsureCapacity v).bits_ = some b' ∧ v < b'.length_) ∧
    ∀ j, (g.EnsureCapacity v).Contains j = g.Contains j := by
  obtain ⟨gb⟩ := g
  by_cases hin : GrowableBitVector.InBitsRange ⟨gb⟩ v = true
  · have he : GrowableBitVector.EnsureCapacity ⟨gb⟩ v = ⟨gb⟩ := by
      rw [EnsureCapacity, if_pos hin]
    rw [he]
    refine ⟨hg, ?_, fun j => rfl⟩
    rcases gb with _ | b
    · simp [InBitsRange] at hin
    · refine ⟨b, rfl, ?_⟩
      simpa [InBitsRange] using hin
  · rcases gb with _ | b
    · have he : GrowableBitVector.EnsureCapacity ⟨none⟩ v =
          ⟨some (BitVector.ofLength (grow kInitialLength v))⟩ := by
        rw [EnsureCapacity, if_neg hin]
      have hvlt : v < grow kInitialLength v :=
        (grow_bounds kInitialLength v).2 (by norm_num [kInitialLength])
      have hpos : 0 < grow kInitialLength v := by
        have := (grow_bounds kInitialLength v).1
        have h1024 : (1024 : Nat) ≤ grow kInitialLength v := by
          simpa [kInitialLength] using this
        omega
      rw [he]
      refine ⟨?_, ⟨_, rfl, hvlt⟩, ?_⟩
      · show (BitVector.ofLength (grow kInitialLength v)).WF ∧
          (BitVector.ofLength (grow kInitialLength v)).PaddingZero ∧
          0 < (BitVector.ofLength (grow kInitialLength v)).length_
        exact ⟨WF_ofLength _, PaddingZero_ofLength _, hpos⟩
      · intro j
        rw [Contains_some, Contains_none]
        rw [Contains_ofLength]
        split <;> rfl
    · obtain ⟨hwf, hpz, hpos⟩ : b.WF ∧ b.PaddingZero ∧ 0 < b.length_ := hg
      have hvlen : b.length_ ≤ v := by
        simp only [InBitsRange, decide_eq_true_eq] at hin
        omega
      have hgrow := grow_bounds b.length_ v
      have hL : b.length_ < grow b.length_ v := by
        have := hgrow.2 hpos
        omega
      have he : GrowableBitVector.EnsureCapacity ⟨some b⟩ v =
          ⟨some (b.Resize (grow b.length_ v))⟩ := by
        rw [EnsureCapacity, if_neg hin]
      have hRlen : (b.Resize (grow b.length_ v)).length_ = grow b.length_ v :=
        Resize_length b _
      rw [he]
      refine ⟨?_, ⟨_, rfl, ?_⟩, ?_⟩
      · show (b.Resize (grow b.length_ v)).WF ∧
          (b.Resize (grow b.length_ v)).PaddingZero ∧
          0 < (b.Resize (grow b.length_ v)).length_
        refine ⟨WF_Resize b _ hwf (by omega),
          PaddingZero_Resize b _ hwf hpz (by omega), ?_⟩
        rw [hRlen]
        omega
      · rw [hRlen]
        have := hgrow.2 hpos
        omega
      · intro j
        rw [Contains_some, Contains_some, hRlen]
        by_cases hj1 : j < b.length_
        · rw [if_pos (by omega), if_pos hj1, Resize_Contains_low b hwf hj1]
        · rw [if_neg hj1]
          by_cases hj2 : j < grow b.length_ v
          · rw [if_pos hj2, Resize_Contains_high b hwf hpz (by omega)]
          · rw [if_neg hj2]

theorem Add_spec (g : GrowableBitVector) (v : Nat) (hg : g.Inv) :
    (g.Add v).Inv ∧
    ∀ j, (g.Add v).Contains j = (decide (j = v) || g.Contains j) := by
  obtain ⟨hinv, ⟨b', hb', hvb⟩, hcont⟩ := EnsureCapacity_spec g v hg
  have hE : g.EnsureCapacity v = ⟨some b'⟩ := by
    rcases hE2 : g.EnsureCapacity v with ⟨eb⟩
    rw [hE2] at hb'
    have : eb = some b' := hb'
    rw [this]
  have hAdd : g.Add v = ⟨some (b'.Add v)⟩ := by
    rw [GrowableBitVector.Add, hE]
  obtain ⟨hwf, hpz, hpos⟩ : b'.WF ∧ b'.PaddingZero ∧ 0 < b'.length_ := by
    rw [hE] at hinv
    exact hinv
  have hgj : ∀ j, g.Contains j = if j < b'.length_ then b'.Contains j
      else false := by
    intro j
    rw [← hcont j, hE, Contains_some]
  constructor
  · rw [hAdd]
    show (b'.Add v).WF ∧ (b'.Add v).PaddingZero ∧ 0 < (b'.Add v).length_
    refine ⟨WF_Add b' v hwf, ?_, hpos⟩
    rw [paddingZero_iff_contains]
    intro k hk
    have hk' : b'.length_ ≤ k := hk
    rw [Contains_Add b' v k hwf hvb,
      (paddingZero_iff_contains b').mp hpz k hk']
    have hne : k ≠ v := by omega
    simp [hne]
  · intro j
    rw [hAdd, Contains_some, hgj j]
    by_cases hj : j < b'.length_
    · rw [if_pos (show j < (b'.Add v).length_ from hj), if_pos hj,
        Contains_Add b' v j hwf hvb]
    · rw [if_neg (show ¬ j < (b'.Add v).length_ from hj), if_neg hj]
      have hne : j ≠ v := by omega
      simp [hne]

theorem foldl_Add_spec (L : List Nat) : ∀ g : GrowableBitVector, g.Inv →
    (L.foldl (fun acc x => acc.Add x) g).Inv ∧
    ∀ j, (L.foldl (fun acc x => acc.Add x) g).Contains j =
      (g.Contains j || decide (j ∈ L)) := by
  induction L with
  | nil =>
    intro g hg
    exact ⟨hg, fun j => by simp⟩
  | cons x xs ih =>
    intro g hg
    obtain ⟨hinv, hcont⟩ := Add_spec g x hg
    obtain ⟨hinv2, hcont2⟩ := ih (g.Add x) hinv
    refine ⟨hinv2, ?_⟩
    intro j
    rw [List.foldl_cons, hcont2 j, hcont j]
    by_cases h1 : j = x <;> by_cases h2 : j ∈ xs <;> simp [h1, h2]

theorem foldl_map_toNat (l : List Nat) : ∀ g : GrowableBitVector,
    (l.map Int.ofNat).foldl (fun acc c => acc.Add c.toNat) g =
      l.foldl (fun acc x => acc.Add x) g := by
  induction l with
  | nil => intro g; rfl
  | cons x xs ih =>
    intro g
    rw [List.map_cons, List.foldl_cons, List.foldl_cons,
      show (Int.ofNat x).toNat = x from rfl, ih]

theorem contains_iff_mem_setBits (g : GrowableBitVector) (hg : g.Inv)
    (j : Nat) :
    g.Contains j = decide (j ∈ setBitsList (iterSource g).data_) := by
  obtain ⟨gb⟩ := g
  rcases gb with _ | b
  · have hnil : setBitsList (iterSource (⟨none⟩ : GrowableBitVector)).data_
        = [] := by
      show setBitsList (BitVector.ofLength 1).data_ = []
      decide
    rw [Contains_none, hnil]
    simp
  · obtain ⟨hwf, hpz, _⟩ : b.WF ∧ b.PaddingZero ∧ 0 < b.length_ := hg
    show Contains ⟨some b⟩ j = decide (j ∈ setBitsList b.data_)
    rw [Contains_some]
    by_cases hj : j < b.length_
    · rw [if_pos hj, Contains_eq_hasBitAt]
      simp [mem_setBitsList]
    · rw [if_neg hj]
      have hz : hasBitAt b.data_ j = false := by
        rw [← Contains_eq_hasBitAt]
        exact (paddingZero_iff_contains b).mp hpz j (by omega)
      simp [mem_setBitsList, hz]

/-! ### Claim C7 -/

/-- Claim C7: `Contains(i)` is false without a backing set or when `i` is
beyond the backing length and otherwise delegates to the backing set; and
`Add(2000)` on an empty growable set allocates a backing set of length 2048
(doubling from the 1024 baseline), after which `Contains(2000)` is true and
`Contains(500)` is false. -/
theorem C7_growable_contains (g : GrowableBitVector) (i : Nat) :
    (g.bits_ = none → g.Contains i = false) ∧
    (∀ b, g.bits_ = some b → b.length_ ≤ i → g.Contains i = false) ∧
    (∀ b, g.bits_ = some b → i < b.length_ → g.Contains i = b.Contains i) ∧
    (⟨none⟩ : GrowableBitVector).Add 2000 =
      ⟨some ((BitVector.ofLength 2048).Add 2000)⟩ ∧
    ((⟨none⟩ : GrowableBitVector).Add 2000).Contains 2000 = true ∧
    ((⟨none⟩ : GrowableBitVector).Add 2000).Contains 500 = false := by
  have hgrow : grow kInitialLength 2000 = 2048 := by
    rw [grow, dif_pos (by norm_num [kInitialLength])]
    rw [grow, dif_neg (by norm_num [kInitialLength])]
    norm_num [kInitialLength]
  have hens : GrowableBitVector.EnsureCapacity ⟨none⟩ 2000 =
      ⟨some (BitVector.ofLength 2048)⟩ := by
    rw [EnsureCapacity, if_neg (by simp [InBitsRange]), hgrow]
  have hadd : (⟨none⟩ : GrowableBitVector).Add 2000 =
      ⟨some ((BitVector.ofLength 2048).Add 2000)⟩ := by
    rw [GrowableBitVector.Add, hens]
  refine ⟨?_, ?_, ?_, hadd, ?_, ?_⟩
  · intro h
    obtain ⟨gb⟩ := g
    have : gb = none := h
    rw [this]
    rfl
  · intro b hb hle
    obtain ⟨gb⟩ := g
    have : gb = some b := hb
    rw [this, Contains_some, if_neg (by omega)]
  · intro b hb hlt
    obtain ⟨gb⟩ := g
    have : gb = some b := hb
    rw [this, Contains_some, if_pos hlt]
  · rw [hadd, Contains_some]
    have h2048 : ((BitVector.ofLength 2048).Add 2000).length_ = 2048 := rfl
    rw [if_pos (by rw [h2048]; norm_num)]
    rw [Contains_Add _ _ _ (WF_ofLength 2048)
      (by show (2000 : Nat) < 2048; norm_num)]
    simp
  · rw [hadd, Contains_some]
    have h2048 : ((BitVector.ofLength 2048).Add 2000).length_ = 2048 := rfl
    rw [if_pos (by rw [h2048]; norm_num)]
    rw [Contains_Add _ _ _ (WF_ofLength 2048)
      (by show (2000 : Nat) < 2048; norm_num)]
    rw [Contains_ofLength]
    simp

/-- Claim C7 witness: a growable set backed by a length-8 vector delegates
`Contains(3)`, and the `Add(2000)` scenario facts instantiated. -/
theorem C7_growable_contains_witness :
    (⟨some (BitVector.ofLength 8)⟩ : GrowableBitVector).Contains 3 =
        (BitVector.ofLength 8).Contains 3 ∧
      ((⟨none⟩ : GrowableBitVector).Add 2000).Contains 2000 = true :=
  ⟨(C7_growable_contains ⟨some (BitVector.ofLength 8)⟩ 3).2.2.1
      (BitVector.ofLength 8) rfl (by show (3 : Nat) < 8; norm_num),
   (C7_growable_contains ⟨none⟩ 0).2.2.2.2.1⟩

/-! ### Claim C8 -/

/-- Claim C8: `Union(other)` adds exactly `other`'s contained indices to the
receiver (`other` itself, a value in this embedding, is untouched); a
`GrowableBitVector::Iterator` over an unallocated set walks a fresh length-1
all-zero `BitVector` and is immediately done, so the union is a no-op. -/
theorem C8_growable_union (g other : GrowableBitVector) (hg : g.Inv)
    (ho : other.Inv) :
    (∀ j, (g.Union other).Contains j = (g.Contains j || other.Contains j)) ∧
    (other.bits_ = none →
      g.Union other = g ∧
      (Iterator.ofTarget (BitVector.ofLength 1)).Done = true) := by
  have hsrcWF : (iterSource other).WF := by
    obtain ⟨ob⟩ := other
    rcases ob with _ | b
    · exact WF_ofLength 1
    · exact ho.1
  have hiter : iterList other =
      (setBitsList (iterSource other).data_).map Int.ofNat :=
    Iterator.ofTarget_toList _ hsrcWF
  constructor
  · intro j
    rw [GrowableBitVector.Union, hiter, foldl_map_toNat,
      (foldl_Add_spec _ g hg).2 j, contains_iff_mem_setBits other ho j]
  · intro hnone
    have hsrc : iterSource other = BitVector.ofLength 1 := by
      obtain ⟨ob⟩ := other
      have : ob = none := hnone
      rw [this]
      rfl
    have hnil : iterList other = [] := by
      rw [hiter, hsrc]
      have hsb : setBitsList (BitVector.ofLength 1).data_ = [] := by decide
      rw [hsb]
      rfl
    refine ⟨?_, ?_⟩
    · rw [GrowableBitVector.Union, hnil]
      rfl
    · apply Iterator.done_of_toList_nil
      have h2 := hnil
      rw [iterList, hsrc] at h2
      exact h2

/-- Claim C8 witness: union of `{2}` into `{1}` (length-8 backings) contains
index 2 exactly as the disjunction says. -/
theorem C8_growable_union_witness :
    ((⟨some ((BitVector.ofLength 8).Add 1)⟩ : GrowableBitVector).Union
        ⟨some ((BitVector.ofLength 8).Add 2)⟩).Contains 2 =
      ((⟨some ((BitVector.ofLength 8).Add 1)⟩ : GrowableBitVector).Contains 2
        || (⟨some ((BitVector.ofLength 8).Add 2)⟩ :
              GrowableBitVector).Contains 2) :=
  (C8_growable_union ⟨some ((BitVector.ofLength 8).Add 1)⟩
    ⟨some ((BitVector.ofLength 8).Add 2)⟩ (by decide) (by decide)).1 2

end GrowableBitVector

namespace BitVector

/-! ### Claim C9 -/

theorem wordAt_copy (b : BitVector) (hb : b.WF) (i : Nat) :
    wordAt (b.copy).data_ i = wordAt b.data_ i := by
  show wordAt (copyWords (SizeFor b.length_) b.data_) i = _
  rw [wordAt_copyWords]
  by_cases hk : i < SizeFor b.length_
  · rw [if_pos hk, if_pos (by rw [hb.1]; exact hk)]
  · rw [if_neg hk, wordAt_default (by rw [hb.1]; omega)]

/-- Claim C9: copy construction produces a well-formed vector of the same
length, `Equals` to the original, answering every `Contains` query alike.
(Storage independence is immediate in this embedding: operations are pure
functions, matching the fresh `zone->NewArray` allocation in the source.) -/
theorem C9_copy_roundtrip (b : BitVector) (hb : b.WF) :
    (b.copy).length_ = b.length_ ∧
    (b.copy).Equals b = true ∧
    (b.copy).WF ∧
    ∀ i, (b.copy).Contains i = b.Contains i := by
  refine ⟨copy_length b, ?_, WF_copy b hb, Contains_copy b hb⟩
  rw [Equals, List.all_eq_true]
  intro i _
  rw [wordAt_copy b hb i]
  simp

/-- Claim C9 witness: the theorem applied to the length-10 set `{2}`. -/
theorem C9_copy_roundtrip_witness :
    (((ofLength 10).Add 2).copy).Equals ((ofLength 10).Add 2) = true ∧
      (((ofLength 10).Add 2).copy).Contains 2 =
        ((ofLength 10).Add 2).Contains 2 :=
  ⟨(C9_copy_roundtrip ((ofLength 10).Add 2) (by decide)).2.1,
   (C9_copy_roundtrip ((ofLength 10).Add 2) (by decide)).2.2.2 2⟩

/-! ### Claim C10 (corrected) -/

/-- Claim C10 counterexample: copy-construction does *not* establish
`PaddingZero` unconditionally: copying a length-1 vector whose padding was
set by `AddAll` reproduces the polluted word. -/
theorem C10_counterexample : ¬ ((ofLength 1).AddAll.copy).PaddingZero := by
  decide

theorem word_eq_of_bits {wa wb : Nat} (ha : wa < 2 ^ 64) (hb : wb < 2 ^ 64)
    (h : ∀ r, r < 64 → wa.testBit r = wb.testBit r) : wa = wb := by
  apply Nat.eq_of_testBit_eq
  intro r
  by_cases hr : r < 64
  · exact h r hr
  · have hbound : (2 : Nat) ^ 64 ≤ 2 ^ r :=
      Nat.pow_le_pow_right (by norm_num) (by omega)
    rw [Nat.testBit_lt_two_pow (by omega), Nat.testBit_lt_two_pow (by omega)]

theorem le_64_mul_SizeFor (L : Nat) : L ≤ 64 * SizeFor L := by
  unfold SizeFor
  split <;> omega

/-- Claim C10 as amended: fresh construction establishes `PaddingZero` and
copy-construction *preserves* it (rather than establishing it
unconditionally); every operation except `AddAll` preserves it — `Add`,
`Remove` (valid index), `Clear`, growing `Resize`, `Subtract` and `Intersect`
unconditionally, `Union` when the (equal-length, well-formed) argument also
satisfies it.  Consequently `Equals` coincides with equality of the logical
sets below `length`, and `Count` counts only indices below `length`. -/
theorem C10_padding_invariant :
    (∀ L, (ofLength L).PaddingZero) ∧
    (∀ (b : BitVector) (i : Nat), b.WF → b.PaddingZero → i < b.length_ →
      (b.Add i).PaddingZero ∧ (b.Remove i).PaddingZero) ∧
    (∀ b : BitVector, (b.Clear).PaddingZero) ∧
    (∀ (b : BitVector) (L2 : Nat), b.WF → b.PaddingZero → b.length_ < L2 →
      (b.Resize L2).PaddingZero) ∧
    (∀ a b : BitVector, a.PaddingZero →
      (a.Subtract b).PaddingZero ∧ (a.Intersect b).PaddingZero) ∧
    (∀ a b : BitVector, a.WF → b.WF → a.PaddingZero → b.PaddingZero →
      a.length_ = b.length_ → (a.Union b).PaddingZero) ∧
    (∀ b : BitVector, b.WF → b.PaddingZero → (b.copy).PaddingZero) ∧
    (∀ a b : BitVector, a.WF → b.WF → a.PaddingZero → b.PaddingZero →
      a.length_ = b.length_ →
      (a.Equals b = true ↔
        ∀ i, i < a.length_ → a.Contains i = b.Contains i)) ∧
    (∀ b : BitVector, b.WF → b.PaddingZero →
      b.Count = ((List.range b.length_).filter fun i => b.Contains i).length)
    := by
  refine ⟨PaddingZero_ofLength, ?_, ?_, ?_, ?_, ?_, ?_, ?_, ?_⟩
  · intro b i hwf hp hi
    constructor
    · rw [paddingZero_iff_contains]
      intro k hk
      have hk' : b.length_ ≤ k := hk
      rw [Contains_Add b i k hwf hi,
        (paddingZero_iff_contains b).mp hp k hk']
      have hne : k ≠ i := by omega
      simp [hne]
    · rw [paddingZero_iff_contains]
      intro k hk
      have hk' : b.length_ ≤ k := hk
      rw [Contains_Remove b i k hwf hi,
        (paddingZero_iff_contains b).mp hp k hk']
      simp
  · intro b
    rw [paddingZero_iff_contains]
    intro k _
    exact Contains_Clear b k
  · intro b L2 hwf hp hL
    exact PaddingZero_Resize b L2 hwf hp (by omega)
  · intro a b hp
    constructor
    · rw [paddingZero_iff_contains]
      intro k hk
      have hk' : a.length_ ≤ k := hk
      rw [Contains_Subtract, (paddingZero_iff_contains a).mp hp k hk']
      rfl
    · rw [paddingZero_iff_contains]
      intro k hk
      have hk' : a.length_ ≤ k := hk
      rw [Contains_Intersect, (paddingZero_iff_contains a).mp hp k hk']
      rfl
  · intro a b hwa hwb hpa hpb hlen
    rw [paddingZero_iff_contains]
    intro k hk
    have hk' : a.length_ ≤ k := hk
    have hdl : b.data_.length ≤ a.data_.length := by
      rw [hwa.1, hwb.1, hlen]
    rw [Contains_Union a b k hdl, (paddingZero_iff_contains a).mp hpa k hk',
      (paddingZero_iff_contains b).mp hpb k (by omega)]
    rfl
  · intro b hwf hp
    rw [paddingZero_iff_contains]
    intro k hk
    have hk' : b.length_ ≤ k := hk
    rw [Contains_copy b hwf k]
    exact (paddingZero_iff_contains b).mp hp k hk'
  · intro a b hwa hwb hpa hpb hlen
    constructor
    · intro heq i hi
      have hword : ∀ j, j < a.data_.length →
          wordAt a.data_ j = wordAt b.data_ j := by
        intro j hj
        have := List.all_eq_true.mp heq j (List.mem_range.mpr hj)
        simpa using this
      have hidx : i / 64 < a.data_.length := by
        rw [hwa.1]; exact div64_lt_SizeFor hi
      rw [Contains_eq_hasBitAt, Contains_eq_hasBitAt, hasBitAt, hasBitAt,
        hword (i / 64) hidx]
    · intro h
      rw [Equals, List.all_eq_true]
      intro j hj
      have hjlt : j < a.data_.length := List.mem_range.mp hj
      have hweq : wordAt a.data_ j = wordAt b.data_ j := by
        apply word_eq_of_bits (wordAt_lt hwa.2 j) (wordAt_lt hwb.2 j)
        intro r hr
        have h1 : (wordAt a.data_ j).testBit r = a.Contains (64 * j + r) := by
          rw [Contains_eq_hasBitAt, hasBitAt_eq_testBit hr]
        have h2 : (wordAt b.data_ j).testBit r = b.Contains (64 * j + r) := by
          rw [Contains_eq_hasBitAt, hasBitAt_eq_testBit hr]
        rw [h1, h2]
        by_cases hlt : 64 * j + r < a.length_
        · exact h _ hlt
        · rw [(paddingZero_iff_contains a).mp hpa _ (by omega),
            (paddingZero_iff_contains b).mp hpb _ (by omega)]
      rw [hweq]
      simp
  · intro b hwf hp
    have hC : b.Count = (setBitsList b.data_).length := by
      rw [setBitsList_length b.data_ hwf.2]
      rfl
    rw [hC, setBitsList]
    have h64 : b.length_ ≤ 64 * b.data_.length := by
      rw [hwf.1]
      exact le_64_mul_SizeFor _
    rw [show 64 * b.data_.length =
      b.length_ + (64 * b.data_.length - b.length_) from by omega]
    rw [List.range_add, List.filter_append, List.length_append]
    have hpad : ((List.range (64 * b.data_.length - b.length_)).map
        (b.length_ + ·)).filter (fun k => hasBitAt b.data_ k) = [] := by
      rw [List.filter_eq_nil_iff]
      intro x hx
      rcases List.mem_map.mp hx with ⟨k, _, rfl⟩
      rw [← Contains_eq_hasBitAt]
      rw [(paddingZero_iff_contains b).mp hp _ (by omega)]
      simp
    rw [hpad]
    have hfirst : (List.range b.length_).filter
        (fun k => hasBitAt b.data_ k) =
        (List.range b.length_).filter fun i => b.Contains i := by
      apply List.filter_congr
      intro k _
      rw [Contains_eq_hasBitAt]
    rw [hfirst]
    rfl

/-- Claim C10 witness: the `Add`/`Remove` preservation conjunct applied to
the fresh length-10 vector at index 3. -/
theorem C10_padding_invariant_witness :
    ((ofLength 10).Add 3).PaddingZero ∧ ((ofLength 10).Remove 3).PaddingZero :=
  C10_padding_invariant.2.1 (ofLength 10) 3 (by decide) (by decide)
    (by decide)

end BitVector

end V8
